import Mathlib

/-!
Verification of the NoQLi argument-expression parser and query-intent
resolver (Go sources `pkg/parser.go`, `pkg/handle_get.go`,
`pkg/handle_update.go`, `pkg/database.go`) against its natural-language
specification.

The Go code is shallowly embedded: strings are processed as `List Char`,
Go's `map[string]any` becomes an association list over a tagged value
type, the backing MySQL store is abstracted as a column list plus an
explicit trace of store accesses, and Go's 64-bit `int` together with
`strconv.Atoi` clamping is modelled over `Int`/`Nat` with an explicit
bound `2^63`.
-/

namespace NoQLi

/-- Character list, the working representation of Go strings. -/
abbrev Chars := List Char

/-- The dynamic values stored in the parser's `map[string]any`:
scalars (string / int / bool / null), `[]any` lists, and the range
marker `map[string]any\x7b"range": []int\x7d` produced by
`parseObjectNotation` (modelled with its `[]int` payload so the
length-2 check in the handlers stays live). -/
inductive AttrValue where
  | vInt (n : Int)
  | vStr (s : String)
  | vBool (b : Bool)
  | vNull
  | vList (xs : List AttrValue)
  | vRange (bounds : List Int)
deriving Repr

mutual

/-- Structural boolean equality on attribute values. -/
def AttrValue.beq : AttrValue → AttrValue → Bool
  | .vInt a, .vInt b => a == b
  | .vStr a, .vStr b => a == b
  | .vBool a, .vBool b => a == b
  | .vNull, .vNull => true
  | .vList as, .vList bs => AttrValue.beqList as bs
  | .vRange as, .vRange bs => as == bs
  | _, _ => false

/-- Pointwise boolean equality on value lists. -/
def AttrValue.beqList : List AttrValue → List AttrValue → Bool
  | [], [] => true
  | a :: as, b :: bs => AttrValue.beq a b && AttrValue.beqList as bs
  | _, _ => false

end

mutual

theorem AttrValue.beq_iff : ∀ a b : AttrValue, AttrValue.beq a b = true ↔ a = b
  | .vInt a, .vInt b => by simp [AttrValue.beq]
  | .vStr a, .vStr b => by simp [AttrValue.beq]
  | .vBool a, .vBool b => by simp [AttrValue.beq]
  | .vNull, .vNull => by simp [AttrValue.beq]
  | .vList as, .vList bs => by
      simp only [AttrValue.beq, AttrValue.beqList_iff as bs]
      exact ⟨fun h => by rw [h], fun h => by cases h; rfl⟩
  | .vRange as, .vRange bs => by simp [AttrValue.beq]
  | .vInt _, .vStr _ => by simp [AttrValue.beq]
  | .vInt _, .vBool _ => by simp [AttrValue.beq]
  | .vInt _, .vNull => by simp [AttrValue.beq]
  | .vInt _, .vList _ => by simp [AttrValue.beq]
  | .vInt _, .vRange _ => by simp [AttrValue.beq]
  | .vStr _, .vInt _ => by simp [AttrValue.beq]
  | .vStr _, .vBool _ => by simp [AttrValue.beq]
  | .vStr _, .vNull => by simp [AttrValue.beq]
  | .vStr _, .vList _ => by simp [AttrValue.beq]
  | .vStr _, .vRange _ => by simp [AttrValue.beq]
  | .vBool _, .vInt _ => by simp [AttrValue.beq]
  | .vBool _, .vStr _ => by simp [AttrValue.beq]
  | .vBool _, .vNull => by simp [AttrValue.beq]
  | .vBool _, .vList _ => by simp [AttrValue.beq]
  | .vBool _, .vRange _ => by simp [AttrValue.beq]
  | .vNull, .vInt _ => by simp [AttrValue.beq]
  | .vNull, .vStr _ => by simp [AttrValue.beq]
  | .vNull, .vBool _ => by simp [AttrValue.beq]
  | .vNull, .vList _ => by simp [AttrValue.beq]
  | .vNull, .vRange _ => by simp [AttrValue.beq]
  | .vList _, .vInt _ => by simp [AttrValue.beq]
  | .vList _, .vStr _ => by simp [AttrValue.beq]
  | .vList _, .vBool _ => by simp [AttrValue.beq]
  | .vList _, .vNull => by simp [AttrValue.beq]
  | .vList _, .vRange _ => by simp [AttrValue.beq]
  | .vRange _, .vInt _ => by simp [AttrValue.beq]
  | .vRange _, .vStr _ => by simp [AttrValue.beq]
  | .vRange _, .vBool _ => by simp [AttrValue.beq]
  | .vRange _, .vNull => by simp [AttrValue.beq]
  | .vRange _, .vList _ => by simp [AttrValue.beq]

theorem AttrValue.beqList_iff : ∀ as bs : List AttrValue,
    AttrValue.beqList as bs = true ↔ as = bs
  | [], [] => by simp [AttrValue.beqList]
  | a :: as, b :: bs => by
      simp only [AttrValue.beqList, Bool.and_eq_true, AttrValue.beq_iff a b,
        AttrValue.beqList_iff as bs]
      exact ⟨fun ⟨h1, h2⟩ => by rw [h1, h2], fun h => by cases h; exact ⟨rfl, rfl⟩⟩
  | [], _ :: _ => by simp [AttrValue.beqList]
  | _ :: _, [] => by simp [AttrValue.beqList]

end

instance : DecidableEq AttrValue :=
  fun a b => decidable_of_iff _ (AttrValue.beq_iff a b)

/-- Association-list model of Go's `map[string]any`: keys unique,
iteration order = insertion order (Go map order is unspecified). -/
abbrev AttrMap := List (String × AttrValue)

/-- First-match lookup (the unique match on key-unique maps). -/
def mapLookup (m : AttrMap) (k : String) : Option AttrValue :=
  (m.find? (fun p => p.1 = k)).map (·.2)

/-- Go `delete(m, k)`: removes the key everywhere. -/
def mapErase (m : AttrMap) (k : String) : AttrMap :=
  m.filter (fun p => p.1 ≠ k)

/-- Go `m[k] = v`: replace any old binding, append the new one. -/
def mapInsert (m : AttrMap) (k : String) (v : AttrValue) : AttrMap :=
  mapErase m k ++ [(k, v)]

/-- Keys of the map. -/
def mapKeys (m : AttrMap) : List String := m.map (·.1)

/-- `isArrayOrRange` from `pkg/database.go`: true exactly for `[]any`
slices and `map[string]any` values. -/
def isArrayOrRange (v : AttrValue) : Bool :=
  match v with
  | .vList _ => true
  | .vRange _ => true
  | _ => false

/-- `toInt` from `pkg/database.go`, restricted to the value shapes the
parser can produce (Go also accepts floats, which do not arise here). -/
def toInt (v : AttrValue) : Option Int :=
  match v with
  | .vInt n => some n
  | _ => none

/-! ### String machinery shared by the parser stages -/

/-- ASCII lower-casing of one character (`strings.ToLower`). -/
def lowerChar (c : Char) : Char :=
  if 'A' ≤ c && c ≤ 'Z' then Char.ofNat (c.toNat + 32) else c

/-- ASCII lower-casing of a string (`strings.ToLower`). -/
def lowerStr (s : String) : String := String.mk (s.data.map lowerChar)

/-- ASCII whitespace, the fragment of `unicode.IsSpace` that matters here. -/
def isSpaceChar (c : Char) : Bool :=
  c = ' ' || c = '\t' || c = '\n' || c = '\r'

/-- Drop leading whitespace (the scanning step of `strings.TrimSpace`
and of the `\s*` regex pieces). -/
def dropSpaces (s : Chars) : Chars := s.dropWhile isSpaceChar

/-- `strings.TrimSpace`. -/
def trimSpace (s : Chars) : Chars :=
  ((dropSpaces s).reverse.dropWhile isSpaceChar).reverse

/-- `strings.Split(s, sep)` for a one-character separator: always at
least one (possibly empty) part. -/
def splitOnChar (sep : Char) : Chars → List Chars
  | [] => [[]]
  | c :: cs =>
    match splitOnChar sep cs with
    | [] => [[]]
    | p :: ps => if c = sep then [] :: p :: ps else (c :: p) :: ps

/-- Join parts with a comma, the inverse of `splitOnChar ','`. -/
def joinComma : List Chars → Chars
  | [] => []
  | [p] => p
  | p :: ps => p ++ ',' :: joinComma ps

/-- `strings.SplitN(s, sep, 2)` for a one-character separator: `none`
when the separator does not occur. -/
def splitN2 (sep : Char) : Chars → Option (Chars × Chars)
  | [] => none
  | c :: cs =>
    if c = sep then some ([], cs)
    else match splitN2 sep cs with
      | none => none
      | some (a, b) => some (c :: a, b)

/-- `splitRespectingQuotes` from `pkg/parser.go`: split on the
delimiter outside single/double quotes; the final segment is appended
only when non-empty. -/
def splitRespectingQuotes (str : Chars) (delimiter : Char) : List Chars :=
  go str false ' ' []
where
  go : Chars → Bool → Char → Chars → List Chars
  | [], _, _, current => if current.isEmpty then [] else [current.reverse]
  | c :: cs, inQuotes, quoteChar, current =>
    if c = '"' || c = '\'' then
      if inQuotes && c = quoteChar then go cs false ' ' (c :: current)
      else if !inQuotes then go cs true c (c :: current)
      else go cs inQuotes quoteChar (c :: current)
    else if c = delimiter && !inQuotes then
      current.reverse :: go cs inQuotes quoteChar []
    else go cs inQuotes quoteChar (c :: current)

/-- A regex `\w` character: `[0-9A-Za-z_]`. -/
def isWordChar (c : Char) : Bool :=
  ('0' ≤ c && c ≤ '9') || ('a' ≤ c && c ≤ 'z') || ('A' ≤ c && c ≤ 'Z') || c = '_'

/-- A regex `\d` character. -/
def isDigitChar (c : Char) : Bool := '0' ≤ c && c ≤ '9'

/-- `strings.Trim(s, "'\"")`: strip every leading and trailing quote
character of either kind. -/
def trimQuotes (s : Chars) : Chars :=
  let isQ : Char → Bool := fun c => c = '\'' || c = '"'
  ((s.dropWhile isQ).reverse.dropWhile isQ).reverse

/-- Value of a decimal digit character. -/
def digitVal (c : Char) : Nat := c.toNat - 48

/-- Accumulate a digit string into a number, most significant first. -/
def foldDigits (s : Chars) : Nat :=
  s.foldl (fun acc c => acc * 10 + digitVal c) 0

/-- Go's `int` is 64-bit here; `strconv.Atoi` clamps to this bound on
overflow while also reporting `ErrRange`. -/
def maxInt64 : Nat := 2 ^ 63 - 1

/-- `strconv.Atoi` where the caller checks the error (`err == nil`):
optional sign, at least one digit, nothing else, and the value must fit
in a 64-bit `int`. -/
def goAtoiChecked (s : Chars) : Option Int :=
  match s with
  | '-' :: rest =>
    if rest ≠ [] && rest.all isDigitChar && foldDigits rest ≤ 2 ^ 63 then
      some (-(foldDigits rest : Int))
    else none
  | '+' :: rest =>
    if rest ≠ [] && rest.all isDigitChar && foldDigits rest ≤ maxInt64 then
      some (foldDigits rest : Int)
    else none
  | _ =>
    if s ≠ [] && s.all isDigitChar && foldDigits s ≤ maxInt64 then
      some (foldDigits s : Int)
    else none

/-- `strconv.Atoi` on an all-digit string with the error ignored
(`id, _ := strconv.Atoi(trimmed)` in `ParseArg`): on overflow Go
returns the clamped `math.MaxInt64` alongside the ignored `ErrRange`. -/
def goAtoiClamped (s : Chars) : Nat :=
  min (foldDigits s) maxInt64

/-- Decimal digits of `n`, least significant first, with explicit fuel
so the definition reduces in the kernel. -/
def digitsRevFuel : Nat → Nat → List Nat
  | 0, _ => []
  | fuel + 1, n => if n < 10 then [n] else n % 10 :: digitsRevFuel fuel (n / 10)

/-- The character for digit `d`. -/
def digitChar (d : Nat) : Char := Char.ofNat (48 + d)

/-- Canonical decimal string of a natural number (what `str(n)` /
`strconv.Itoa` produce). -/
def decimalChars (n : Nat) : Chars :=
  ((digitsRevFuel (n + 1) n).reverse).map digitChar

/-- String form of `decimalChars`. -/
def decimalOfNat (n : Nat) : String := String.mk (decimalChars n)

/-- Does the pattern occur at the head? (`strings.HasPrefix`.) -/
def startsWith : Chars → Chars → Bool
  | [], _ => true
  | _ :: _, [] => false
  | p :: ps, c :: cs => p = c && startsWith ps cs

/-- Does the string end with the character? -/
def endsWithChar (c : Char) (s : Chars) : Bool :=
  match s.getLast? with
  | some x => x = c
  | none => false

/-- `strings.Replace(s, pat, "", 1)` for a non-empty pattern: remove
the first occurrence, leave the rest untouched. -/
def replaceFirst (pat : Chars) : Chars → Chars
  | [] => []
  | c :: cs =>
    if startsWith pat (c :: cs) then (c :: cs).drop pat.length
    else c :: replaceFirst pat cs

/-! ### A small model of `encoding/json.Unmarshal`

Only the fragment the parser can feed it: objects with
(double-)quoted keys, string/integer/boolean/null scalars and nested
arrays. Floating-point numbers, escape sequences and nested objects
are not modelled — no claim exercises them; integers land in `vInt`
(Go would produce `float64`, which the handlers' `toInt` accepts the
same way). The essential behaviour for the theorems below is that
`Unmarshal` rejects objects whose keys are not quoted. -/

mutual

/-- Parse one JSON value at the head; returns the value and the rest. -/
def jsonParseValue : Nat → Chars → Option (AttrValue × Chars)
  | 0, _ => none
  | fuel + 1, s =>
    match dropSpaces s with
    | '"' :: rest =>
      match splitN2 '"' rest with
      | none => none
      | some (content, after) => some (.vStr (String.mk content), after)
    | 't' :: 'r' :: 'u' :: 'e' :: rest => some (.vBool true, rest)
    | 'f' :: 'a' :: 'l' :: 's' :: 'e' :: rest => some (.vBool false, rest)
    | 'n' :: 'u' :: 'l' :: 'l' :: rest => some (.vNull, rest)
    | '[' :: rest =>
      match dropSpaces rest with
      | ']' :: after => some (.vList [], after)
      | other => jsonParseElems fuel other []
    | '-' :: rest =>
      let ds := rest.takeWhile isDigitChar
      if ds.isEmpty then none
      else some (.vInt (-(foldDigits ds : Int)), rest.drop ds.length)
    | c :: rest =>
      if isDigitChar c then
        let ds := (c :: rest).takeWhile isDigitChar
        some (.vInt (foldDigits ds), (c :: rest).drop ds.length)
      else none
    | [] => none

/-- Parse the elements of a JSON array after the opening bracket. -/
def jsonParseElems : Nat → Chars → List AttrValue → Option (AttrValue × Chars)
  | 0, _, _ => none
  | fuel + 1, s, acc =>
    match jsonParseValue fuel s with
    | none => none
    | some (v, rest) =>
      match dropSpaces rest with
      | ',' :: rest2 => jsonParseElems fuel rest2 (acc ++ [v])
      | ']' :: rest2 => some (.vList (acc ++ [v]), rest2)
      | _ => none

end

/-- `json.Unmarshal` into a bare value: the whole input must be one
JSON value (surrounding whitespace allowed). -/
def jsonUnmarshalValue (s : Chars) : Option AttrValue :=
  match jsonParseValue (s.length + 1) s with
  | some (v, rest) => if dropSpaces rest = [] then some v else none
  | none => none

/-- Parse the members of a JSON object after the opening brace;
requires every key to be double-quoted. -/
def jsonParseMembers : Nat → Chars → List (String × AttrValue) →
    Option (List (String × AttrValue) × Chars)
  | 0, _, _ => none
  | fuel + 1, s, acc =>
    match dropSpaces s with
    | '"' :: rest =>
      match splitN2 '"' rest with
      | none => none
      | some (key, after) =>
        match dropSpaces after with
        | ':' :: rest2 =>
          match jsonParseValue (rest2.length + 1) rest2 with
          | none => none
          | some (v, rest3) =>
            match dropSpaces rest3 with
            | ',' :: rest4 => jsonParseMembers fuel rest4 (acc ++ [(String.mk key, v)])
            | '}' :: rest5 => some (acc ++ [(String.mk key, v)], rest5)
            | _ => none
        | _ => none
    | _ => none

/-- `json.Unmarshal` into a `map[string]any`: the whole input must be
one JSON object. -/
def jsonUnmarshalObj (s : Chars) : Option (List (String × AttrValue)) :=
  match dropSpaces s with
  | '{' :: rest =>
    match dropSpaces rest with
    | '}' :: rest2 => if dropSpaces rest2 = [] then some [] else none
    | _ =>
      match jsonParseMembers (s.length + 1) rest [] with
      | some (ms, rest2) => if dropSpaces rest2 = [] then some ms else none
      | none => none
  | _ => none

/-! ### The regex scanners of `parseObjectNotation` (`pkg/parser.go`)

Each Go regex is embedded as a dedicated left-to-right scanner with
the same match semantics on the pattern in question. -/

/-- One attempt of `\[([^\]]+)\]\s*=\s*([^,}]+)` anchored at the head;
returns (full match, fields group, value group). -/
def tryMultiAssignAt (s : Chars) : Option (Chars × Chars × Chars) :=
  match s with
  | '[' :: rest =>
    match splitN2 ']' rest with
    | none => none
    | some (fields, after) =>
      if fields.isEmpty then none
      else
        match dropSpaces after with
        | '=' :: rest2 =>
          let rest3 := dropSpaces rest2
          let value := rest3.takeWhile (fun c => c ≠ ',' && c ≠ '}')
          if value.isEmpty then none
          else
            let remainder := rest3.drop value.length
            some (s.take (s.length - remainder.length), fields, value)
        | _ => none
  | _ => none

/-- `FindAllStringSubmatch` for the multi-assignment regex: leftmost
matches, scanning resumes after each match. -/
def findMultiAssigns : Nat → Chars → List (Chars × Chars × Chars)
  | 0, _ => []
  | _ + 1, [] => []
  | fuel + 1, c :: cs =>
    match tryMultiAssignAt (c :: cs) with
    | some (full, fields, value) =>
      (full, fields, value) :: findMultiAssigns fuel ((c :: cs).drop full.length)
    | none => findMultiAssigns fuel cs

/-- One attempt of `id\s*:\s*\(([^,]+),([^)]+)\)` anchored at the head. -/
def tryRangeAt (s : Chars) : Option (Chars × Chars × Chars) :=
  match s with
  | 'i' :: 'd' :: rest =>
    match dropSpaces rest with
    | ':' :: rest2 =>
      match dropSpaces rest2 with
      | '(' :: rest3 =>
        match splitN2 ',' rest3 with
        | some (g1, rest4) =>
          if g1.isEmpty then none
          else
            match splitN2 ')' rest4 with
            | some (g2, rest5) =>
              if g2.isEmpty then none
              else some (s.take (s.length - rest5.length), g1, g2)
            | none => none
        | none => none
      | _ => none
    | _ => none
  | _ => none

/-- `FindStringSubmatch` for the range regex: first match anywhere. -/
def rangeFindFrom : Chars → Option (Chars × Chars × Chars)
  | [] => none
  | c :: cs =>
    match tryRangeAt (c :: cs) with
    | some r => some r
    | none => rangeFindFrom cs

/-- One attempt of `(\w+)\s*:\s*\[(.*?)\]` anchored at the head. -/
def tryArrayAt (s : Chars) : Option (Chars × Chars × Chars) :=
  let key := s.takeWhile isWordChar
  if key.isEmpty then none
  else
    match dropSpaces (s.drop key.length) with
    | ':' :: rest2 =>
      match dropSpaces rest2 with
      | '[' :: rest3 =>
        match splitN2 ']' rest3 with
        | some (content, rest4) =>
          some (s.take (s.length - rest4.length), key, content)
        | none => none
      | _ => none
    | _ => none

/-- `FindAllStringSubmatch` for the array regex. -/
def findArrays : Nat → Chars → List (Chars × Chars × Chars)
  | 0, _ => []
  | _ + 1, [] => []
  | fuel + 1, c :: cs =>
    match tryArrayAt (c :: cs) with
    | some (full, key, content) =>
      (full, key, content) :: findArrays fuel ((c :: cs).drop full.length)
    | none => findArrays fuel cs

/-- After a comma: does `\s*,` follow, and what comes after it? -/
def afterCommaSpaces (cs : Chars) : Option Chars :=
  match dropSpaces cs with
  | ',' :: rest => some rest
  | _ => none

/-- `ReplaceAllString` of `,\s*,` by `,`: single pass, non-overlapping
leftmost matches, scanning resumes after each replacement. -/
def replaceDoubleCommas : Nat → Chars → Chars
  | 0, s => s
  | _ + 1, [] => []
  | fuel + 1, c :: cs =>
    if c = ',' then
      match afterCommaSpaces cs with
      | some rest => ',' :: replaceDoubleCommas fuel rest
      | none => ',' :: replaceDoubleCommas fuel cs
    else c :: replaceDoubleCommas fuel cs

/-- `ReplaceAllString` of `^,|,$` by the empty string: one leading and
one trailing comma go. -/
def stripLeadComma (s : Chars) : Chars :=
  match s with
  | ',' :: rest => rest
  | other => other

def stripEdgeCommas (s : Chars) : Chars :=
  if endsWithChar ',' (stripLeadComma s) then (stripLeadComma s).dropLast
  else stripLeadComma s

/-! ### The stages of `parseObjectNotation` (`pkg/parser.go:70-217`) -/

/-- Multi-field assignment stage (`pkg/parser.go:78-104`): every
`[f1,f2] = value` match is cut out of the working text; the value is
JSON-decoded, falling back to a quote-stripped string; each field gets
the value. -/
def multiAssignStage (t : Chars) (result : AttrMap) : Chars × AttrMap :=
  (findMultiAssigns (t.length + 1) t).foldl
    (fun acc ma =>
      let t' := replaceFirst ma.1 acc.1
      let valueStr := trimSpace ma.2.2
      let value := match jsonUnmarshalValue valueStr with
        | some v => v
        | none => .vStr (String.mk (trimQuotes valueStr))
      let fields := splitOnChar ',' ma.2.1
      (t', fields.foldl
        (fun r f => mapInsert r (String.mk (trimSpace f)) value) acc.2))
    (t, result)

/-- ID-range stage (`pkg/parser.go:106-126`): the first
`id: (start, stop)` match becomes `id ↦ Range`, with `strconv.Atoi`
errors (checked here) failing the parse. -/
def rangeStage (t : Chars) (result : AttrMap) : Except String (Chars × AttrMap) :=
  match rangeFindFrom t with
  | none => .ok (t, result)
  | some (full, g1, g2) =>
    match goAtoiChecked (trimSpace g1) with
    | none => .error "invalid range start"
    | some start =>
      match goAtoiChecked (trimSpace g2) with
      | none => .error "invalid range end"
      | some stop =>
        .ok (replaceFirst full t, mapInsert result "id" (.vRange [start, stop]))

/-- Cleanup stage (`pkg/parser.go:128-131`): trim, collapse `,\s*,`,
strip one leading/trailing comma. -/
def cleanupStage (t : Chars) : Chars :=
  let t1 := trimSpace t
  stripEdgeCommas (replaceDoubleCommas (t1.length + 1) t1)

/-- Element coercion of the array stage (`pkg/parser.go:151-167`):
quoted → quote-stripped string, integer-looking → int, otherwise the
raw trimmed token. -/
def coerceArrayElem (elem : Chars) : AttrValue :=
  let e := trimSpace elem
  if (startsWith ['"'] e && endsWithChar '"' e)
      || (startsWith ['\''] e && endsWithChar '\'' e) then
    .vStr (String.mk (trimQuotes e))
  else
    match goAtoiChecked e with
    | some n => .vInt n
    | none => .vStr (String.mk e)

/-- Array stage (`pkg/parser.go:133-172`): every `key: [elems]` match
is cut out; its content is split respecting quotes and coerced
element-wise. -/
def arraysStage (t : Chars) (result : AttrMap) : Chars × AttrMap :=
  (findArrays (t.length + 1) t).foldl
    (fun acc ar =>
      let t' := replaceFirst ar.1 acc.1
      let elements := splitRespectingQuotes ar.2.2 ','
      (t', mapInsert acc.2 (String.mk ar.2.1) (.vList (elements.map coerceArrayElem))))
    (t, result)

/-- Residual key-value stage (`pkg/parser.go:174-214`): try JSON on
the remaining text with single quotes doubled (merging only keys not
already present); on failure, split on commas and parse each
`key: value` pair manually, skipping pairs without a colon and
bracketed values already handled by the array stage. -/
def residualStage (t : Chars) (result : AttrMap) : AttrMap :=
  if t.isEmpty then result
  else
    let jsonStr := '{' :: (t.map fun c => if c = '\'' then '"' else c) ++ ['}']
    match jsonUnmarshalObj jsonStr with
    | some jsonObj =>
      jsonObj.foldl
        (fun r kv => if (mapLookup r kv.1).isSome then r else mapInsert r kv.1 kv.2)
        result
    | none =>
      (splitOnChar ',' t).foldl
        (fun r pair =>
          match splitN2 ':' pair with
          | none => r
          | some (rawKey, rawVal) =>
            let key := String.mk (trimSpace rawKey)
            let valueStr := trimSpace rawVal
            if startsWith ['['] valueStr && endsWithChar ']' valueStr then r
            else
              match goAtoiChecked valueStr with
              | some n => mapInsert r key (.vInt n)
              | none => mapInsert r key (.vStr (String.mk (trimQuotes valueStr))))
        result

/-- `parseObjectNotation` from `pkg/parser.go`: the caller guarantees
the outer braces, which are stripped first. -/
def parseObjectExpr (s : Chars) : Except String AttrMap :=
  let t0 := trimSpace ((s.drop 1).dropLast)
  let (t1, r1) := multiAssignStage t0 []
  match rangeStage t1 r1 with
  | .error e => .error e
  | .ok (t2, r2) =>
    let t3 := cleanupStage t2
    let (t4, r4) := arraysStage t3 r2
    .ok (residualStage t4 r4)

/-- `ParseArg` from `pkg/parser.go`: empty input gives a `nil` map;
an all-digit input is special-cased to `\x7bid: n\x7d` with the
`strconv.Atoi` error ignored (clamping at `math.MaxInt64`); a braced
input goes through `parseObjectNotation`; anything else is malformed. -/
def ParseArg (str : String) : Except String (Option AttrMap) :=
  if str = "" then .ok none
  else
    let trimmed := trimSpace str.data
    if !trimmed.isEmpty && trimmed.all isDigitChar then
      .ok (some [("id", .vInt (goAtoiClamped trimmed))])
    else if startsWith ['{'] trimmed && endsWithChar '}' trimmed then
      (parseObjectExpr trimmed).map some
    else .error "invalid argument format"

/-! ### The bare-identifier projection clause

The tests (`TestGetCommandColumns`), the `MySQLcoverage` document and
the `_columns` consumer in `HandleGet` all rely on the parser turning
a leading run of comma-separated bare words into the reserved
`_columns` key, but the stage itself is absent from the
`pkg/parser.go` snapshot; it is modelled here from the spec. -/

/-- Modelled from the spec: a clause qualifies for the bare identifier
list when, after trimming, it is a non-empty bare word with no colon
(all `\w` characters). -/
def isBareClause (p : Chars) : Bool :=
  let t := trimSpace p
  !t.isEmpty && t.all isWordChar

/-- Modelled from the spec: the comma-separated bare words at the
start of the expression become the reserved key `_columns` bound to
the list of those identifiers as strings; the remaining clauses stay
in the working text. This stage is missing from `pkg/parser.go` and
runs, per the spec's extraction order, after the list clauses and
before the residual key-value clauses. -/
def detectBareColumns (t : Chars) (result : AttrMap) : Chars × AttrMap :=
  let clauses := splitOnChar ',' t
  let bare := clauses.takeWhile isBareClause
  if bare.isEmpty then (t, result)
  else
    (joinComma (clauses.drop bare.length),
     mapInsert result "_columns"
       (.vList (bare.map fun c => .vStr (String.mk (trimSpace c)))))

/-- `parseObjectNotation` extended with the spec-modelled
bare-identifier projection stage in the spec's extraction order. -/
def parseObjectExprSpec (s : Chars) : Except String AttrMap :=
  let t0 := trimSpace ((s.drop 1).dropLast)
  let (t1, r1) := multiAssignStage t0 []
  match rangeStage t1 r1 with
  | .error e => .error e
  | .ok (t2, r2) =>
    let t3 := cleanupStage t2
    let (t4, r4) := arraysStage t3 r2
    let (t5, r5) := detectBareColumns t4 r4
    .ok (residualStage t5 r5)

/-- `ParseArg` routed through the spec-extended object parser. -/
def ParseArgSpec (str : String) : Except String (Option AttrMap) :=
  if str = "" then .ok none
  else
    let trimmed := trimSpace str.data
    if !trimmed.isEmpty && trimmed.all isDigitChar then
      .ok (some [("id", .vInt (goAtoiClamped trimmed))])
    else if startsWith ['{'] trimmed && endsWithChar '}' trimmed then
      (parseObjectExprSpec trimmed).map some
    else .error "invalid argument format"

/-! ### The GET resolver (`pkg/handle_get.go`)

The backing store is abstracted to its column list; every store
round-trip is recorded in an access trace. The model stops at the
fully assembled parameterized query (the `GetOutput`), which is what
`db.Query` receives; result-set scanning and printing are I/O outside
the core. -/

/-- A store access made by `HandleGet`: the `SHOW COLUMNS` round-trip
of `getColumns` or the final `db.Query`. -/
inductive Access where
  | listColumns
  | query
deriving Repr, DecidableEq

mutual

/-- `fmt.Sprintf("%v", v)` on the value shapes of the model. -/
def goFormat : AttrValue → String
  | .vInt n => toString n
  | .vStr s => s
  | .vBool true => "true"
  | .vBool false => "false"
  | .vNull => "<nil>"
  | .vList xs => "[" ++ " ".intercalate (goFormatList xs) ++ "]"
  | .vRange bs => "map[range:[" ++ " ".intercalate (bs.map toString) ++ "]]"

/-- `%v` of each element of a slice. -/
def goFormatList : List AttrValue → List String
  | [] => []
  | v :: vs => goFormat v :: goFormatList vs

end

/-- Parameter coercion inside an IN list
(`pkg/handle_get.go:160-172`): numbers pass through, everything else
becomes its `%v` string. -/
def coerceParam (v : AttrValue) : AttrValue :=
  match v with
  | .vInt n => .vInt n
  | other => .vStr (goFormat other)

/-- One WHERE condition of the built query. -/
inductive Cond where
  | noMatch
  | inList (field : String) (params : List AttrValue)
  | between (field : String) (lo hi : Int)
  | eq (field : String) (param : AttrValue)
deriving Repr, DecidableEq

/-- The column a condition constrains (`none` for the literal `0=1`). -/
def condField : Cond → Option String
  | .noMatch => none
  | .inList f _ => some f
  | .between f _ _ => some f
  | .eq f _ => some f

/-- Column-selection extraction (`pkg/handle_get.go:15-42`): a
`_columns` value that is a non-empty list with at least one string
element fixes the projection and is deleted; any other shape leaves
both the projection and the key untouched. -/
def extractColumns (args : AttrMap) : Option (List String) × AttrMap :=
  match mapLookup args "_columns" with
  | some (.vList xs) =>
    if !xs.isEmpty then
      let strs := xs.filterMap fun v =>
        match v with
        | .vStr s => some s
        | _ => none
      if !strs.isEmpty then (some strs, mapErase args "_columns")
      else (none, args)
    else (none, args)
  | _ => (none, args)

/-- The recurring Go idiom
`if v, ok := args[k1]; ok \x7b ...; delete(args, k1) \x7d else if
v, ok := args[k2]; ok \x7b ...; delete(args, k2) \x7d`: look the first
spelling up, fall back to the second, delete the one found. -/
def extractTwo (k1 k2 : String) (args : AttrMap) :
    Option AttrValue × AttrMap :=
  match mapLookup args k1 with
  | some v => (some v, mapErase args k1)
  | none =>
    match mapLookup args k2 with
    | some v => (some v, mapErase args k2)
    | none => (none, args)

/-- Ordering extraction (`pkg/handle_get.go:57-86`): `up` else `UP`
(deleted even when the value is not a string), then `down` else `DOWN`
whose string value overrides the ascending clause. `true` means ASC. -/
def extractOrder (args : AttrMap) : Option (String × Bool) × AttrMap :=
  let (upValue, a1) := extractTwo "up" "UP" args
  let ord1 : Option (String × Bool) :=
    match upValue with
    | some (.vStr c) => some (c, true)
    | _ => none
  let (downValue, a2) := extractTwo "down" "DOWN" a1
  let ord2 : Option (String × Bool) :=
    match downValue with
    | some (.vStr c) => some (c, false)
    | some _ => ord1
    | none => ord1
  (ord2, a2)

/-- The validation half of the pagination block
(`pkg/handle_get.go:107-125`): extracted values must be integers and
non-negative, the limit checked before the offset. -/
def validatePagination (limValue offValue : Option AttrValue) :
    Except String Unit :=
  match limValue with
  | some v =>
    match toInt v with
    | some n =>
      if n < 0 then .error "LIMIT must be non-negative"
      else
        match offValue with
        | some w =>
          match toInt w with
          | some m =>
            if m < 0 then .error "OFFSET must be non-negative"
            else .ok ()
          | none => .error "OFFSET must be an integer"
        | none => .ok ()
    | none => .error "LIMIT must be an integer"
  | none =>
    match offValue with
    | some w =>
      match toInt w with
      | some m =>
        if m < 0 then .error "OFFSET must be non-negative"
        else .ok ()
      | none => .error "OFFSET must be an integer"
    | none => .ok ()

/-- Pagination extraction and validation
(`pkg/handle_get.go:88-132`): `LIM` else `lim`, `OFF` else `off`, both
deleted; values must be integers and non-negative. -/
def extractPagination (args : AttrMap) :
    Except String ((Option AttrValue × Option AttrValue) × AttrMap) :=
  let (limValue, a1) := extractTwo "LIM" "lim" args
  let (offValue, a2) := extractTwo "OFF" "off" a1
  match validatePagination limValue offValue with
  | .error e => .error e
  | .ok _ => .ok ((limValue, offValue), a2)

/-- Free-text extraction (`pkg/handle_get.go:134-144`): `LIKE` else
`like`, deleted. -/
def extractLike (args : AttrMap) : Option AttrValue × AttrMap :=
  extractTwo "LIKE" "like" args

/-- Condition built for one residual filter entry
(`pkg/handle_get.go:153-190`): empty list → `0=1`, list → IN, range →
inclusive between (only when the payload has exactly two bounds),
anything else → equality. -/
def condOfEntry (p : String × AttrValue) : Except String Cond :=
  match p.2 with
  | .vList [] => .ok .noMatch
  | .vList xs => .ok (.inList p.1 (xs.map coerceParam))
  | .vRange bs =>
    match bs with
    | [lo, hi] => .ok (.between p.1 lo hi)
    | _ => .error ("invalid range format for field " ++ p.1)
  | v => .ok (.eq p.1 v)

/-- WHERE clause assembly over the residual filter entries. -/
def buildWhere : AttrMap → Except String (List Cond)
  | [] => .ok []
  | p :: rest =>
    match condOfEntry p with
    | .error e => .error e
    | .ok c =>
      match buildWhere rest with
      | .error e => .error e
      | .ok cs => .ok (c :: cs)

/-- LIKE clause assembly (`pkg/handle_get.go:202-222`): the `%v`
string of the value, wrapped in wildcards when it contains none,
OR-combined across the selected columns. -/
def likeInfo (likeValue : Option AttrValue) (selectedCols : List String) :
    Except String (Option (String × List String)) :=
  match likeValue with
  | none => .ok none
  | some v =>
    if selectedCols.isEmpty then .error "no columns found for LIKE clause"
    else
      let likeStr := goFormat v
      let pat := if likeStr.contains '%' then likeStr else "%" ++ likeStr ++ "%"
      .ok (some (pat, selectedCols))

/-- The fully assembled GET query, as handed to `db.Query`. -/
structure GetOutput where
  selectedCols : List String
  whereConds : List Cond
  likeClause : Option (String × List String)
  orderBy : Option (String × Bool)
  limit : Option AttrValue
  offset : Option AttrValue
  residualArgs : AttrMap
deriving Repr, DecidableEq

/-- `HandleGet` from `pkg/handle_get.go` (a table is selected; the
`args != nil` guards collapse since a nil map reads like an empty
one). Returns the store-access trace alongside the outcome; the final
`db.Query` round-trip is the `query` access. -/
def HandleGet (schema : List String) (args0 : AttrMap) :
    List Access × Except String GetOutput :=
  let (explicitCols, a1) := extractColumns args0
  let (accs, selectedCols) :=
    match explicitCols with
    | some cs => (([] : List Access), cs)
    | none => ([Access.listColumns], schema)
  let (orderBy, a2) := extractOrder a1
  match extractPagination a2 with
  | .error e => (accs, .error e)
  | .ok ((limValue, offValue), a3) =>
    let (likeValue, a4) := extractLike a3
    match buildWhere a4 with
    | .error e => (accs, .error e)
    | .ok conds =>
      match likeInfo likeValue selectedCols with
      | .error e => (accs, .error e)
      | .ok lc =>
        (accs ++ [Access.query],
         .ok { selectedCols := selectedCols, whereConds := conds,
               likeClause := lc, orderBy := orderBy, limit := limValue,
               offset := offValue, residualArgs := a4 })

/-! ### The UPDATE resolver (`pkg/handle_update.go`, `pkg/database.go`) -/

/-- A store access made by `HandleUpdate`: the `SHOW COLUMNS`
round-trips, an `ALTER TABLE ... ADD COLUMN`, or the `UPDATE`
execution itself. -/
inductive UAccess where
  | listCols
  | alterAdd (col : String)
  | execUpdate
deriving Repr, DecidableEq

/-- The filter/update split of `HandleUpdate`
(`pkg/handle_update.go:42-65`): `id` is always a filter; an existing
column with an array/range value is a filter; everything else is an
update field. -/
def classifyFields (existingCols : List String) (args : AttrMap) :
    AttrMap × AttrMap :=
  args.foldl
    (fun acc kv =>
      if kv.1 = "id" then (acc.1 ++ [kv], acc.2)
      else if existingCols.contains kv.1 && isArrayOrRange kv.2 then
        (acc.1 ++ [kv], acc.2)
      else (acc.1, acc.2 ++ [kv]))
    ([], [])

/-- `ensureColumns` from `pkg/database.go:34-65`: re-fetch the column
list, then `ALTER TABLE ... ADD COLUMN` for every non-`id` field not
yet present. Returns the accesses issued and the grown schema. -/
def ensureColumns (schema : List String) (fields : AttrMap) :
    List UAccess × List String :=
  fields.foldl
    (fun acc kv =>
      if kv.1 = "id" then acc
      else if schema.contains kv.1 then acc
      else (acc.1 ++ [UAccess.alterAdd kv.1], acc.2 ++ [kv.1]))
    ([UAccess.listCols], schema)

/-- The executed UPDATE statement's content. -/
structure UpdateOutput where
  setFields : AttrMap
  filterConds : List Cond
  affected : Nat
deriving Repr, DecidableEq

/-- `HandleUpdate` from `pkg/handle_update.go` (tabular-output path; a
table is selected). `confirmAnswer` models `ScanForConfirmation` and
`rowsMatched` the row count the store reports for the UPDATE.
Returns the access trace, the final schema and the outcome. -/
def HandleUpdate (schema : List String) (args : AttrMap)
    (confirmAnswer : String) (rowsMatched : Nat) :
    List UAccess × List String × Except String UpdateOutput :=
  if args.isEmpty then
    ([], schema, .error "UPDATE requires fields to update and filter conditions")
  else
    let existingCols := schema
    if args.length = 1 &&
        args.all (fun kv => isArrayOrRange kv.2 && existingCols.contains kv.1) then
      ([UAccess.listCols], schema,
       .error "UPDATE requires fields to update (filter only provided)")
    else
      let (filterFields, updateFields) := classifyFields existingCols args
      if updateFields.isEmpty then
        ([UAccess.listCols], schema, .error "UPDATE requires fields to update")
      else if filterFields.isEmpty && lowerStr confirmAnswer ≠ "y" then
        ([UAccess.listCols], schema, .error "operation cancelled")
      else
        let (ensureAccs, schema2) := ensureColumns schema updateFields
        match buildWhere filterFields with
        | .error e => (UAccess.listCols :: ensureAccs, schema2, .error e)
        | .ok conds =>
          let accs := UAccess.listCols :: ensureAccs ++ [UAccess.execUpdate]
          if rowsMatched = 0 then
            (accs, schema2, .error "no records matched the filter criteria")
          else
            (accs, schema2,
             .ok { setFields := updateFields, filterConds := conds,
                   affected := rowsMatched })

/-! ### Aggregate extraction, modelled from the spec

The tests exercise `\x7bCOUNT: '*'\x7d` and friends and the spec
devotes extraction step 1 to the aggregate options, but no aggregate
handling exists anywhere in the source snapshot; the stage is
modelled from the spec's words. -/

/-- The aggregate option keywords of the spec's closed enumeration. -/
def aggregateKeys : List String := ["count", "min", "max", "avg", "sum"]

/-- Modelled from the spec: the case-insensitive key lookup used for
all reserved options. -/
def lookupCI (args : AttrMap) (k : String) : Option AttrValue :=
  (args.find? fun p => lowerStr p.1 = lowerStr k).map (·.2)

/-- Modelled from the spec: exactly one of count/min/max/avg/sum may
be active; the presence of more than one fails with
`AmbiguousAggregate`; a single one is consumed from the working map. -/
def extractAggregate (args : AttrMap) :
    Except String (Option (String × AttrValue) × AttrMap) :=
  match aggregateKeys.filter (fun n => (lookupCI args n).isSome) with
  | [] => .ok (none, args)
  | [n] =>
    .ok (some (n, (lookupCI args n).getD .vNull),
         args.filter fun p => lowerStr p.1 ≠ n)
  | _ => .error "AmbiguousAggregate"

/-- Modelled from the spec: GET resolution with the aggregate stage
first (the spec's extraction step 1), falling through to the embedded
`HandleGet` for everything else. -/
def HandleGetSpec (schema : List String) (args : AttrMap) :
    List Access × Except String (Option (String × AttrValue) × GetOutput) :=
  match extractAggregate args with
  | .error e => ([], .error e)
  | .ok (agg, args2) =>
    match HandleGet schema args2 with
    | (accs, .error e) => (accs, .error e)
    | (accs, .ok out) => (accs, .ok (agg, out))

/-! ## Lemmas about the attribute-map operations -/

theorem mapLookup_nil (k : String) : mapLookup [] k = none := rfl

theorem mapLookup_cons (k k' : String) (v : AttrValue) (m : AttrMap) :
    mapLookup ((k', v) :: m) k = if k' = k then some v else mapLookup m k := by
  by_cases h : k' = k <;> simp [mapLookup, List.find?, h]

theorem mapErase_cons (k k' : String) (v : AttrValue) (m : AttrMap) :
    mapErase ((k', v) :: m) k =
      if k' = k then mapErase m k else (k', v) :: mapErase m k := by
  by_cases h : k' = k <;> simp [mapErase, h]

theorem mapLookup_mapErase_ne (m : AttrMap) (k k' : String) (h : k ≠ k') :
    mapLookup (mapErase m k') k = mapLookup m k := by
  induction m with
  | nil => rfl
  | cons p m ih =>
    obtain ⟨pk, pv⟩ := p
    rw [mapErase_cons]
    by_cases hpk : pk = k'
    · rw [if_pos hpk, ih, mapLookup_cons,
        if_neg (fun hk => h ((hpk.symm.trans hk).symm))]
    · rw [if_neg hpk, mapLookup_cons, mapLookup_cons, ih]

theorem mapLookup_mapErase_self (m : AttrMap) (k : String) :
    mapLookup (mapErase m k) k = none := by
  induction m with
  | nil => rfl
  | cons p m ih =>
    obtain ⟨pk, pv⟩ := p
    rw [mapErase_cons]
    by_cases hpk : pk = k
    · rw [if_pos hpk]; exact ih
    · rw [if_neg hpk, mapLookup_cons, if_neg hpk]; exact ih

theorem mapErase_of_lookup_none (m : AttrMap) (k : String)
    (h : mapLookup m k = none) : mapErase m k = m := by
  induction m with
  | nil => rfl
  | cons p m ih =>
    obtain ⟨pk, pv⟩ := p
    rw [mapLookup_cons] at h
    by_cases hpk : pk = k
    · rw [if_pos hpk] at h; cases h
    · rw [if_neg hpk] at h
      rw [mapErase_cons, if_neg hpk, ih h]

theorem mapLookup_eq_some_mem {m : AttrMap} {k : String} {v : AttrValue}
    (h : mapLookup m k = some v) : (k, v) ∈ m := by
  induction m with
  | nil => cases h
  | cons p m ih =>
    obtain ⟨pk, pv⟩ := p
    rw [mapLookup_cons] at h
    by_cases hpk : pk = k
    · rw [if_pos hpk] at h
      cases h
      exact hpk ▸ List.mem_cons_self _ _
    · rw [if_neg hpk] at h
      exact List.mem_cons_of_mem _ (ih h)

theorem mapLookup_none_not_mem {m : AttrMap} {k : String}
    (h : mapLookup m k = none) : ∀ v, (k, v) ∉ m := by
  induction m with
  | nil => intro v hv; cases hv
  | cons p m ih =>
    obtain ⟨pk, pv⟩ := p
    rw [mapLookup_cons] at h
    by_cases hpk : pk = k
    · rw [if_pos hpk] at h; cases h
    · rw [if_neg hpk] at h
      intro v hv
      rcases List.mem_cons.mp hv with h1 | h1
      · cases h1; exact hpk rfl
      · exact ih h v h1

theorem mapLookup_mapInsert_self (m : AttrMap) (k : String) (v : AttrValue) :
    mapLookup (mapInsert m k v) k = some v := by
  unfold mapInsert
  induction m with
  | nil => simp [mapErase, mapLookup, List.find?]
  | cons p m ih =>
    obtain ⟨pk, pv⟩ := p
    rw [show mapErase ((pk, pv) :: m) k ++ [(k, v)] =
      (if pk = k then mapErase m k else (pk, pv) :: mapErase m k) ++ [(k, v)] by
        rw [mapErase_cons]]
    by_cases hpk : pk = k
    · rw [if_pos hpk]; exact ih
    · rw [if_neg hpk, List.cons_append, mapLookup_cons, if_neg hpk]; exact ih

theorem mapLookup_mapInsert_ne (m : AttrMap) (k k' : String) (v : AttrValue)
    (h : k' ≠ k) : mapLookup (mapInsert m k' v) k = mapLookup m k := by
  unfold mapInsert
  have hfind : mapLookup (mapErase m k' ++ [(k', v)]) k =
      mapLookup (mapErase m k') k := by
    induction mapErase m k' with
    | nil => simp [mapLookup, List.find?, h]
    | cons p rest ih =>
      obtain ⟨pk, pv⟩ := p
      rw [List.cons_append, mapLookup_cons, mapLookup_cons, ih]
  rw [hfind, mapLookup_mapErase_ne m k k' (fun hk => h hk.symm)]

/-! ## C2: two aggregate options at once -/

/-- **C2.** For every GET attribute map containing two or more of the
aggregate option keys (`count`, `min`, `max`, `avg`, `sum`, any case),
the spec-modelled resolution fails with `AmbiguousAggregate` and no
store access happens, so no query is executed. -/
theorem C2_two_aggregates_ambiguous (schema : List String) (args : AttrMap)
    (h : 2 ≤ (aggregateKeys.filter fun n => (lookupCI args n).isSome).length) :
    HandleGetSpec schema args = ([], .error "AmbiguousAggregate") := by
  unfold HandleGetSpec extractAggregate
  match hp : aggregateKeys.filter fun n => (lookupCI args n).isSome with
  | [] => rw [hp] at h; simp at h
  | [n] => rw [hp] at h; simp at h
  | a :: b :: rest => rfl

/-- Witness for C2 at the spec's own example: `COUNT` and `MAX`
together. -/
theorem C2_two_aggregates_ambiguous_witness :
    2 ≤ (aggregateKeys.filter fun n =>
        (lookupCI [("COUNT", .vStr "*"), ("MAX", .vStr "id")] n).isSome).length ∧
    HandleGetSpec ["id", "name"] [("COUNT", .vStr "*"), ("MAX", .vStr "id")] =
      ([], .error "AmbiguousAggregate") :=
  ⟨by decide,
   C2_two_aggregates_ambiguous ["id", "name"]
     [("COUNT", .vStr "*"), ("MAX", .vStr "id")] (by decide)⟩

/-! ## C4 and C5: the UPDATE filter/update split -/

/-- The split criterion of `pkg/handle_update.go:42-65` as a predicate
on one entry. -/
def isFilterEntry (cols : List String) (kv : String × AttrValue) : Bool :=
  kv.1 = "id" || (cols.contains kv.1 && isArrayOrRange kv.2)

theorem classifyFields_eq (cols : List String) (args : AttrMap) :
    classifyFields cols args =
      (args.filter (fun kv => isFilterEntry cols kv),
       args.filter (fun kv => !isFilterEntry cols kv)) := by
  have step : ∀ (l : AttrMap) (acc : AttrMap × AttrMap),
      l.foldl
        (fun acc kv =>
          if kv.1 = "id" then (acc.1 ++ [kv], acc.2)
          else if cols.contains kv.1 && isArrayOrRange kv.2 then
            (acc.1 ++ [kv], acc.2)
          else (acc.1, acc.2 ++ [kv])) acc =
      (acc.1 ++ l.filter (fun kv => isFilterEntry cols kv),
       acc.2 ++ l.filter (fun kv => !isFilterEntry cols kv)) := by
    intro l
    induction l with
    | nil => intro acc; simp
    | cons kv rest ih =>
      intro acc
      rw [List.foldl_cons, List.filter_cons, List.filter_cons]
      by_cases h1 : kv.1 = "id"
      · have hf : isFilterEntry cols kv = true := by
          simp [isFilterEntry, h1]
        rw [if_pos h1, ih, hf]
        simp
      · by_cases h2 : (cols.contains kv.1 && isArrayOrRange kv.2) = true
        · have hf : isFilterEntry cols kv = true := by
            simp only [isFilterEntry, h2, Bool.or_true]
          rw [if_neg h1, if_pos h2, ih, hf]
          simp
        · rw [Bool.not_eq_true] at h2
          have hf : isFilterEntry cols kv = false := by
            unfold isFilterEntry
            rw [h2, Bool.or_false, decide_eq_false h1]
          rw [if_neg h1, if_neg (by rw [h2]; exact Bool.false_ne_true), ih, hf]
          simp
  exact step args ([], [])

/-- **C4.** In the UPDATE classification, given any entry of the
attribute map: `id` always lands in the filter fields; any other key
lands in the filter fields iff it names an existing column and its
value is a list or a range; every remaining entry (scalar-valued
existing columns and unknown columns alike) lands in the update
fields. -/
theorem C4_update_classification (cols : List String) (args : AttrMap)
    (k : String) (v : AttrValue) (hmem : (k, v) ∈ args) :
    ((k, v) ∈ (classifyFields cols args).1 ↔
      (k = "id" ∨ (k ∈ cols ∧ isArrayOrRange v = true))) ∧
    ((k, v) ∈ (classifyFields cols args).2 ↔
      ¬(k = "id" ∨ (k ∈ cols ∧ isArrayOrRange v = true))) := by
  have hiff : isFilterEntry cols (k, v) = true ↔
      (k = "id" ∨ (k ∈ cols ∧ isArrayOrRange v = true)) := by
    unfold isFilterEntry
    simp [List.elem_iff]
  rw [classifyFields_eq]
  constructor
  · rw [List.mem_filter]
    simp only [hmem, true_and]
    exact hiff
  · rw [List.mem_filter]
    simp only [hmem, true_and, Bool.not_eq_true']
    rw [← hiff]
    cases isFilterEntry cols (k, v) <;> simp

/-- Witness for C4 at the spec's example: known columns containing
`status`, input `\x7bid: 5, status: 'x'\x7d`; `status` classifies as
update, `id` as filter. -/
theorem C4_update_classification_witness :
    (("status", AttrValue.vStr "x") ∈
      ([("id", .vInt 5), ("status", .vStr "x")] : AttrMap)) ∧
    ((("status", AttrValue.vStr "x") ∈
        (classifyFields ["id", "status"]
          [("id", .vInt 5), ("status", .vStr "x")]).2 ↔
      ¬("status" = "id" ∨
        ("status" ∈ ["id", "status"] ∧ isArrayOrRange (.vStr "x") = true)))) :=
  ⟨by simp,
   (C4_update_classification ["id", "status"]
      [("id", .vInt 5), ("status", .vStr "x")] "status" (.vStr "x")
      (by simp)).2⟩

/-- **C5.** Every UPDATE whose attribute map yields no update fields
after classification fails with a "requires fields to update" error
(the NoUpdateFields taxon), the schema is unchanged, and the only
store accesses are column listings — no write is issued. -/
theorem C5_no_update_fields (cols : List String) (args : AttrMap)
    (confirm : String) (rows : Nat)
    (h : (classifyFields cols args).2 = []) :
    (HandleUpdate cols args confirm rows).2.1 = cols ∧
    (∀ a ∈ (HandleUpdate cols args confirm rows).1, a = UAccess.listCols) ∧
    ∃ msg, (HandleUpdate cols args confirm rows).2.2 = .error msg ∧
      (msg = "UPDATE requires fields to update and filter conditions" ∨
       msg = "UPDATE requires fields to update (filter only provided)" ∨
       msg = "UPDATE requires fields to update") := by
  have key :
      HandleUpdate cols args confirm rows =
          ([], cols, .error "UPDATE requires fields to update and filter conditions") ∨
      HandleUpdate cols args confirm rows =
          ([UAccess.listCols], cols,
            .error "UPDATE requires fields to update (filter only provided)") ∨
      HandleUpdate cols args confirm rows =
          ([UAccess.listCols], cols, .error "UPDATE requires fields to update") := by
    rcases hcf : classifyFields cols args with ⟨ff, uf⟩
    have huf : uf = [] := by rw [← h, hcf]
    subst huf
    unfold HandleUpdate
    dsimp only
    rw [hcf]
    split
    · exact Or.inl rfl
    · split
      · exact Or.inr (Or.inl rfl)
      · exact Or.inr (Or.inr rfl)
  rcases key with hk | hk | hk <;> rw [hk]
  · exact ⟨rfl, by simp, _, rfl, Or.inl rfl⟩
  · exact ⟨rfl, by simp, _, rfl, Or.inr (Or.inl rfl)⟩
  · exact ⟨rfl, by simp, _, rfl, Or.inr (Or.inr rfl)⟩

/-- Witness for C5 at the spec's example: known columns `status` and
input `\x7bstatus: ['a','b']\x7d` alone. -/
theorem C5_no_update_fields_witness :
    (classifyFields ["status"] [("status", .vList [.vStr "a", .vStr "b"])]).2 = [] ∧
    ((HandleUpdate ["status"] [("status", .vList [.vStr "a", .vStr "b"])] "n" 7).2.1 =
        ["status"] ∧
      (∀ a ∈ (HandleUpdate ["status"]
          [("status", .vList [.vStr "a", .vStr "b"])] "n" 7).1,
        a = UAccess.listCols) ∧
      ∃ msg,
        (HandleUpdate ["status"] [("status", .vList [.vStr "a", .vStr "b"])] "n" 7).2.2 =
          .error msg ∧
        (msg = "UPDATE requires fields to update and filter conditions" ∨
         msg = "UPDATE requires fields to update (filter only provided)" ∨
         msg = "UPDATE requires fields to update")) :=
  ⟨by decide,
   C5_no_update_fields ["status"] [("status", .vList [.vStr "a", .vStr "b"])]
     "n" 7 (by decide)⟩

/-! ## C10: failed UPDATE keeps the schema change -/

/-- An update field that triggers `ALTER TABLE`: not `id` and not an
existing column. -/
def isNewField (schema : List String) (kv : String × AttrValue) : Bool :=
  !(kv.1 = "id" : Bool) && !(schema.contains kv.1)

/-- The columns `ensureColumns` creates, in order. -/
def newFields (schema : List String) (fields : AttrMap) : List String :=
  (fields.filter (isNewField schema)).map (·.1)

theorem ensureColumns_eq (schema : List String) (fields : AttrMap) :
    ensureColumns schema fields =
      (UAccess.listCols :: (newFields schema fields).map UAccess.alterAdd,
       schema ++ newFields schema fields) := by
  have step : ∀ (l : AttrMap) (acc : List UAccess × List String),
      l.foldl
        (fun acc kv =>
          if kv.1 = "id" then acc
          else if schema.contains kv.1 then acc
          else (acc.1 ++ [UAccess.alterAdd kv.1], acc.2 ++ [kv.1])) acc =
      (acc.1 ++ (newFields schema l).map UAccess.alterAdd,
       acc.2 ++ newFields schema l) := by
    intro l
    induction l with
    | nil => intro acc; simp [newFields]
    | cons kv rest ih =>
      intro acc
      rw [List.foldl_cons]
      by_cases h1 : kv.1 = "id"
      · have hn : isNewField schema kv = false := by
          simp [isNewField, h1]
        rw [if_pos h1, ih]
        simp [newFields, List.filter_cons, hn]
      · by_cases h2 : schema.contains kv.1 = true
        · have hn : isNewField schema kv = false := by
            unfold isNewField
            rw [h2]
            simp
          rw [if_neg h1, if_pos h2, ih]
          simp [newFields, List.filter_cons, hn]
        · rw [Bool.not_eq_true] at h2
          have hn : isNewField schema kv = true := by
            unfold isNewField
            rw [h2, decide_eq_false h1]
            rfl
          rw [if_neg h1, if_neg (by rw [h2]; exact Bool.false_ne_true), ih]
          simp [newFields, List.filter_cons, hn]
  exact step fields ([UAccess.listCols], schema)

/-- Update-field entries never carry the key `id`. -/
theorem classify_update_ne_id {cols : List String} {args : AttrMap}
    {k : String} {v : AttrValue}
    (hmem : (k, v) ∈ (classifyFields cols args).2) : k ≠ "id" := by
  rw [classifyFields_eq] at hmem
  have := (List.mem_filter.mp hmem).2
  intro hk
  simp [isFilterEntry, hk] at this

/-- Update-field entries come from the input map. -/
theorem classify_update_sub {cols : List String} {args : AttrMap}
    {k : String} {v : AttrValue}
    (hmem : (k, v) ∈ (classifyFields cols args).2) : (k, v) ∈ args := by
  rw [classifyFields_eq] at hmem
  exact (List.mem_filter.mp hmem).1

/-- **C10.** When an UPDATE carries an unknown update field and its
row update then matches zero rows, `HandleUpdate` returns an error,
yet the `ALTER TABLE` for the new column was already issued before the
update execution and the new column persists in the schema — the
failed UPDATE does not roll back the schema change. -/
theorem C10_failed_update_keeps_new_columns
    (cols : List String) (args : AttrMap) (confirm : String)
    (u : String) (v : AttrValue)
    (hmem : (u, v) ∈ (classifyFields cols args).2)
    (hnew : u ∉ cols)
    (hflt : (classifyFields cols args).1 ≠ [])
    (hw : ∃ conds, buildWhere (classifyFields cols args).1 = .ok conds) :
    (HandleUpdate cols args confirm 0).2.2 =
        .error "no records matched the filter criteria" ∧
    u ∈ (HandleUpdate cols args confirm 0).2.1 ∧
    ∃ pre, (HandleUpdate cols args confirm 0).1 = pre ++ [UAccess.execUpdate] ∧
      UAccess.alterAdd u ∈ pre := by
  obtain ⟨conds, hconds⟩ := hw
  have hid : u ≠ "id" := classify_update_ne_id hmem
  have hargs : (u, v) ∈ args := classify_update_sub hmem
  have hne : ¬ args.isEmpty = true := by
    cases args with
    | nil => cases hargs
    | cons a l => simp
  have hsingle :
      ¬ ((decide (args.length = 1) &&
          args.all fun kv => isArrayOrRange kv.2 && cols.contains kv.1) = true) := by
    intro hs
    rw [Bool.and_eq_true] at hs
    have hall := List.all_eq_true.mp hs.2 _ hargs
    rw [Bool.and_eq_true] at hall
    rw [classifyFields_eq, List.mem_filter] at hmem
    have := hmem.2
    simp only [isFilterEntry, Bool.not_eq_true', Bool.or_eq_false_iff,
      Bool.and_eq_false_iff] at this
    rcases this.2 with hc | ha
    · rw [hall.2] at hc; cases hc
    · rw [hall.1] at ha; cases ha
  have hcontains : cols.contains u = false := by
    cases hc : cols.contains u
    · rfl
    · exact absurd (List.elem_iff.mp hc) hnew
  have hunew : u ∈ newFields cols (classifyFields cols args).2 := by
    unfold newFields
    refine List.mem_map.mpr ⟨(u, v), List.mem_filter.mpr ⟨hmem, ?_⟩, rfl⟩
    unfold isNewField
    rw [hcontains, decide_eq_false hid]
    rfl
  rcases hcf : classifyFields cols args with ⟨ff, uf⟩
  rw [hcf] at hmem hflt hconds hunew
  have hufne : ¬ uf.isEmpty = true := by
    cases uf with
    | nil => cases hmem
    | cons a l => simp
  have hffne : (ff.isEmpty && decide (lowerStr confirm ≠ "y")) = false := by
    cases ff with
    | nil => exact absurd rfl hflt
    | cons a l => rfl
  have key : HandleUpdate cols args confirm 0 =
      (UAccess.listCols ::
        ((ensureColumns cols uf).1 ++ [UAccess.execUpdate]),
       (ensureColumns cols uf).2,
       .error "no records matched the filter criteria") := by
    unfold HandleUpdate
    dsimp only
    rw [if_neg hne, if_neg hsingle, hcf]
    dsimp only
    rw [if_neg hufne, if_neg (by rw [hffne]; exact Bool.false_ne_true)]
    rw [hconds]
    rfl
  rw [key]
  refine ⟨rfl, ?_, UAccess.listCols :: (ensureColumns cols uf).1, by simp, ?_⟩
  · rw [ensureColumns_eq]
    exact List.mem_append.mpr (Or.inr hunew)
  · rw [ensureColumns_eq]
    exact List.mem_cons_of_mem _
      (List.mem_cons_of_mem _ (List.mem_map.mpr ⟨u, hunew, rfl⟩))

/-- Witness for C10: `UPDATE \x7bid: 5, newcol: 'x'\x7d` on a table
without a `newcol` column, matching zero rows. -/
theorem C10_failed_update_keeps_new_columns_witness :
    (("newcol", AttrValue.vStr "x") ∈
        (classifyFields ["id", "status"]
          [("id", .vInt 5), ("newcol", .vStr "x")]).2) ∧
    ("newcol" ∉ ["id", "status"]) ∧
    ((HandleUpdate ["id", "status"] [("id", .vInt 5), ("newcol", .vStr "x")]
        "n" 0).2.2 = .error "no records matched the filter criteria" ∧
      "newcol" ∈ (HandleUpdate ["id", "status"]
        [("id", .vInt 5), ("newcol", .vStr "x")] "n" 0).2.1 ∧
      ∃ pre, (HandleUpdate ["id", "status"]
          [("id", .vInt 5), ("newcol", .vStr "x")] "n" 0).1 =
          pre ++ [UAccess.execUpdate] ∧
        UAccess.alterAdd "newcol" ∈ pre) :=
  ⟨by decide, by decide,
   C10_failed_update_keeps_new_columns ["id", "status"]
     [("id", .vInt 5), ("newcol", .vStr "x")] "n" "newcol" (.vStr "x")
     (by decide) (by decide) (by decide) ⟨_, rfl⟩⟩

/-! ## Lemmas about the option-extraction stages of `HandleGet` -/

theorem extractTwo_cons (k1 k2 k : String) (v : AttrValue) (m : AttrMap)
    (h1 : k ≠ k1) (h2 : k ≠ k2) :
    extractTwo k1 k2 ((k, v) :: m) =
      ((extractTwo k1 k2 m).1, (k, v) :: (extractTwo k1 k2 m).2) := by
  unfold extractTwo
  rw [mapLookup_cons, if_neg h1]
  cases hm1 : mapLookup m k1 with
  | some w =>
    dsimp only
    rw [mapErase_cons, if_neg h1]
  | none =>
    dsimp only
    rw [mapLookup_cons, if_neg h2]
    cases hm2 : mapLookup m k2 with
    | some w =>
      dsimp only
      rw [mapErase_cons, if_neg h2]
    | none => rfl

theorem extractTwo_head1 (k1 k2 : String) (v : AttrValue) (m : AttrMap)
    (h1 : mapLookup m k1 = none) :
    extractTwo k1 k2 ((k1, v) :: m) = (some v, m) := by
  simp [extractTwo, mapLookup_cons, mapErase_cons,
    mapErase_of_lookup_none m k1 h1]

theorem extractTwo_head2 (k1 k2 : String) (v : AttrValue) (m : AttrMap)
    (h21 : k2 ≠ k1) (h1 : mapLookup m k1 = none) (h2 : mapLookup m k2 = none) :
    extractTwo k1 k2 ((k2, v) :: m) = (some v, m) := by
  simp [extractTwo, mapLookup_cons, mapErase_cons, h21, h1,
    mapErase_of_lookup_none m k2 h2]

theorem extractTwo_fst (k1 k2 : String) (m : AttrMap) :
    (extractTwo k1 k2 m).1 = (mapLookup m k1).or (mapLookup m k2) := by
  unfold extractTwo
  cases mapLookup m k1 <;> cases mapLookup m k2 <;> rfl

theorem extractTwo_snd_lookup_other (k1 k2 k : String) (m : AttrMap)
    (h1 : k ≠ k1) (h2 : k ≠ k2) :
    mapLookup (extractTwo k1 k2 m).2 k = mapLookup m k := by
  unfold extractTwo
  cases hm1 : mapLookup m k1 with
  | some w => exact mapLookup_mapErase_ne m k k1 h1
  | none =>
    cases hm2 : mapLookup m k2 with
    | some w => exact mapLookup_mapErase_ne m k k2 h2
    | none => rfl

theorem extractTwo_snd_lookup_self (k1 k2 : String) (m : AttrMap)
    (hk : k1 ≠ k2)
    (h : ¬((mapLookup m k1).isSome ∧ (mapLookup m k2).isSome)) :
    mapLookup (extractTwo k1 k2 m).2 k1 = none ∧
    mapLookup (extractTwo k1 k2 m).2 k2 = none := by
  unfold extractTwo
  cases hm1 : mapLookup m k1 with
  | some w =>
    refine ⟨mapLookup_mapErase_self m k1, ?_⟩
    rw [mapLookup_mapErase_ne m k2 k1 (fun hh => hk hh.symm)]
    cases hm2 : mapLookup m k2 with
    | some u => exact absurd ⟨by rw [hm1]; rfl, by rw [hm2]; rfl⟩ h
    | none => rfl
  | none =>
    cases hm2 : mapLookup m k2 with
    | some w =>
      exact ⟨by rw [mapLookup_mapErase_ne m k1 k2 hk]; exact hm1,
        mapLookup_mapErase_self m k2⟩
    | none => exact ⟨hm1, hm2⟩

theorem extractColumns_cons (k : String) (v : AttrValue) (m : AttrMap)
    (hk : k ≠ "_columns") :
    extractColumns ((k, v) :: m) =
      ((extractColumns m).1, (k, v) :: (extractColumns m).2) := by
  unfold extractColumns
  rw [mapLookup_cons, if_neg hk]
  cases hm : mapLookup m "_columns" with
  | none => rfl
  | some w =>
    cases w with
    | vList xs =>
      by_cases hxs : xs.isEmpty
      · simp only [hxs, Bool.not_true, Bool.false_eq_true, if_false]
      · simp only [Bool.not_eq_true] at hxs
        simp only [hxs, Bool.not_false, if_true]
        by_cases hstrs : (xs.filterMap fun v =>
            match v with | .vStr s => some s | _ => none).isEmpty
        · simp only [hstrs, Bool.not_true, Bool.false_eq_true, if_false]
        · simp only [Bool.not_eq_true] at hstrs
          simp only [hstrs, Bool.not_false, if_true]
          rw [mapErase_cons, if_neg hk]
    | vInt n => rfl
    | vStr s => rfl
    | vBool b => rfl
    | vNull => rfl
    | vRange bs => rfl

theorem extractColumns_snd_lookup (m : AttrMap) (k : String)
    (hk : k ≠ "_columns") :
    mapLookup (extractColumns m).2 k = mapLookup m k := by
  unfold extractColumns
  cases hm : mapLookup m "_columns" with
  | none => rfl
  | some w =>
    cases w with
    | vList xs =>
      by_cases hxs : xs.isEmpty
      · simp only [hxs, Bool.not_true, Bool.false_eq_true, if_false]
      · simp only [Bool.not_eq_true] at hxs
        simp only [hxs, Bool.not_false, if_true]
        by_cases hstrs : (xs.filterMap fun v =>
            match v with | .vStr s => some s | _ => none).isEmpty
        · simp only [hstrs, Bool.not_true, Bool.false_eq_true, if_false]
        · simp only [Bool.not_eq_true] at hstrs
          simp only [hstrs, Bool.not_false, if_true]
          exact mapLookup_mapErase_ne m k "_columns" hk
    | vInt n => rfl
    | vStr s => rfl
    | vBool b => rfl
    | vNull => rfl
    | vRange bs => rfl

theorem extractOrder_snd (m : AttrMap) :
    (extractOrder m).2 = (extractTwo "down" "DOWN" (extractTwo "up" "UP" m).2).2 :=
  rfl

theorem extractOrder_snd_lookup (m : AttrMap) (k : String)
    (h1 : k ≠ "up") (h2 : k ≠ "UP") (h3 : k ≠ "down") (h4 : k ≠ "DOWN") :
    mapLookup (extractOrder m).2 k = mapLookup m k := by
  rw [extractOrder_snd, extractTwo_snd_lookup_other _ _ _ _ h3 h4,
    extractTwo_snd_lookup_other _ _ _ _ h1 h2]

theorem extractOrder_cons (k : String) (v : AttrValue) (m : AttrMap)
    (h1 : k ≠ "up") (h2 : k ≠ "UP") (h3 : k ≠ "down") (h4 : k ≠ "DOWN") :
    extractOrder ((k, v) :: m) =
      ((extractOrder m).1, (k, v) :: (extractOrder m).2) := by
  unfold extractOrder
  rw [extractTwo_cons "up" "UP" k v m h1 h2]
  dsimp only
  rw [extractTwo_cons "down" "DOWN" k v _ h3 h4]

theorem extractPagination_cons (k : String) (v : AttrValue) (m : AttrMap)
    (h1 : k ≠ "LIM") (h2 : k ≠ "lim") (h3 : k ≠ "OFF") (h4 : k ≠ "off") :
    extractPagination ((k, v) :: m) =
      (extractPagination m).map (fun x => (x.1, (k, v) :: x.2)) := by
  unfold extractPagination
  rw [extractTwo_cons "LIM" "lim" k v m h1 h2]
  dsimp only
  rw [extractTwo_cons "OFF" "off" k v _ h3 h4]
  dsimp only
  cases validatePagination (extractTwo "LIM" "lim" m).1
      (extractTwo "OFF" "off" (extractTwo "LIM" "lim" m).2).1 with
  | error e => rfl
  | ok u => rfl

/-! ## C3: case variations of the reserved options -/

/-- **C3** (counterexample). The mixed-case spelling `Lim` is not
consumed as a pagination option: it survives into the WHERE clause as
an ordinary column filter with no limit set, while the lowercase
spelling produces a limit and no filter. -/
theorem C3_mixed_case_not_recognized :
    HandleGet ["id", "name"] [("Lim", .vInt 2)] =
      ([Access.listColumns, Access.query],
       .ok { selectedCols := ["id", "name"],
             whereConds := [.eq "Lim" (.vInt 2)],
             likeClause := none, orderBy := none,
             limit := none, offset := none,
             residualArgs := [("Lim", .vInt 2)] }) ∧
    HandleGet ["id", "name"] [("lim", .vInt 2)] =
      ([Access.listColumns, Access.query],
       .ok { selectedCols := ["id", "name"], whereConds := [],
             likeClause := none, orderBy := none,
             limit := some (.vInt 2), offset := none,
             residualArgs := [] }) :=
  ⟨rfl, rfl⟩

theorem extractOrder_swap_up (v : AttrValue) (m : AttrMap)
    (hlo : mapLookup m "up" = none) (hhi : mapLookup m "UP" = none) :
    extractOrder (("UP", v) :: m) = extractOrder (("up", v) :: m) := by
  unfold extractOrder
  rw [extractTwo_head1 "up" "UP" v m hlo,
    extractTwo_head2 "up" "UP" v m (by decide) hlo hhi]

theorem extractOrder_swap_down (v : AttrValue) (m : AttrMap)
    (hlo : mapLookup m "down" = none) (hhi : mapLookup m "DOWN" = none) :
    extractOrder (("DOWN", v) :: m) = extractOrder (("down", v) :: m) := by
  unfold extractOrder
  rw [extractTwo_cons "up" "UP" "DOWN" v m (by decide) (by decide),
    extractTwo_cons "up" "UP" "down" v m (by decide) (by decide)]
  dsimp only
  have hlo2 : mapLookup (extractTwo "up" "UP" m).2 "down" = none := by
    rw [extractTwo_snd_lookup_other _ _ _ _ (by decide) (by decide)]
    exact hlo
  have hhi2 : mapLookup (extractTwo "up" "UP" m).2 "DOWN" = none := by
    rw [extractTwo_snd_lookup_other _ _ _ _ (by decide) (by decide)]
    exact hhi
  rw [extractTwo_head1 "down" "DOWN" v _ hlo2,
    extractTwo_head2 "down" "DOWN" v _ (by decide) hlo2 hhi2]

theorem extractPagination_swap_lim (v : AttrValue) (m : AttrMap)
    (hlo : mapLookup m "lim" = none) (hhi : mapLookup m "LIM" = none) :
    extractPagination (("LIM", v) :: m) = extractPagination (("lim", v) :: m) := by
  unfold extractPagination
  rw [extractTwo_head1 "LIM" "lim" v m hhi,
    extractTwo_head2 "LIM" "lim" v m (by decide) hhi hlo]

theorem extractPagination_swap_off (v : AttrValue) (m : AttrMap)
    (hlo : mapLookup m "off" = none) (hhi : mapLookup m "OFF" = none) :
    extractPagination (("OFF", v) :: m) = extractPagination (("off", v) :: m) := by
  unfold extractPagination
  rw [extractTwo_cons "LIM" "lim" "OFF" v m (by decide) (by decide),
    extractTwo_cons "LIM" "lim" "off" v m (by decide) (by decide)]
  dsimp only
  have hlo2 : mapLookup (extractTwo "LIM" "lim" m).2 "off" = none := by
    rw [extractTwo_snd_lookup_other _ _ _ _ (by decide) (by decide)]
    exact hlo
  have hhi2 : mapLookup (extractTwo "LIM" "lim" m).2 "OFF" = none := by
    rw [extractTwo_snd_lookup_other _ _ _ _ (by decide) (by decide)]
    exact hhi
  rw [extractTwo_head1 "OFF" "off" v _ hhi2,
    extractTwo_head2 "OFF" "off" v _ (by decide) hhi2 hlo2]

theorem extractLike_swap (v : AttrValue) (m : AttrMap)
    (hlo : mapLookup m "like" = none) (hhi : mapLookup m "LIKE" = none) :
    extractLike (("LIKE", v) :: m) = extractLike (("like", v) :: m) := by
  unfold extractLike
  rw [extractTwo_head1 "LIKE" "like" v m hhi,
    extractTwo_head2 "LIKE" "like" v m (by decide) hhi hlo]

/-- The five double-spelling reserved options handled by `HandleGet`,
lowercase alongside the recognized uppercase variant. -/
def optionPairs : List (String × String) :=
  [("up", "UP"), ("down", "DOWN"), ("lim", "LIM"), ("off", "OFF"), ("like", "LIKE")]

/-- **C3** (amended). For the reserved options `up`, `down`, `lim`,
`off`, `like`, the resolver recognizes exactly the all-lowercase and
all-uppercase spellings and consumes either identically: on any
attribute map containing neither spelling, adding the option under the
uppercase spelling resolves exactly as adding it under the lowercase
one. (Mixed-case spellings such as `Lim` are ordinary user columns,
and the aggregate keywords are not extracted by this resolver at all.) -/
theorem C3_reserved_option_spellings (lo hi : String)
    (hp : (lo, hi) ∈ optionPairs) (schema : List String)
    (m : AttrMap) (v : AttrValue)
    (hlo : mapLookup m lo = none) (hhi : mapLookup m hi = none) :
    HandleGet schema ((hi, v) :: m) = HandleGet schema ((lo, v) :: m) := by
  fin_cases hp
  · unfold HandleGet
    rw [extractColumns_cons "UP" v m (by decide),
      extractColumns_cons "up" v m (by decide)]
    dsimp only
    rw [extractOrder_swap_up v (extractColumns m).2
      (by rw [extractColumns_snd_lookup m "up" (by decide)]; exact hlo)
      (by rw [extractColumns_snd_lookup m "UP" (by decide)]; exact hhi)]
  · unfold HandleGet
    rw [extractColumns_cons "DOWN" v m (by decide),
      extractColumns_cons "down" v m (by decide)]
    dsimp only
    rw [extractOrder_swap_down v (extractColumns m).2
      (by rw [extractColumns_snd_lookup m "down" (by decide)]; exact hlo)
      (by rw [extractColumns_snd_lookup m "DOWN" (by decide)]; exact hhi)]
  · unfold HandleGet
    rw [extractColumns_cons "LIM" v m (by decide),
      extractColumns_cons "lim" v m (by decide)]
    dsimp only
    rw [extractOrder_cons "LIM" v _ (by decide) (by decide) (by decide) (by decide),
      extractOrder_cons "lim" v _ (by decide) (by decide) (by decide) (by decide)]
    dsimp only
    rw [extractPagination_swap_lim v (extractOrder (extractColumns m).2).2
      (by
        rw [extractOrder_snd_lookup _ _ (by decide) (by decide) (by decide) (by decide),
          extractColumns_snd_lookup m _ (by decide)]
        exact hlo)
      (by
        rw [extractOrder_snd_lookup _ _ (by decide) (by decide) (by decide) (by decide),
          extractColumns_snd_lookup m _ (by decide)]
        exact hhi)]
  · unfold HandleGet
    rw [extractColumns_cons "OFF" v m (by decide),
      extractColumns_cons "off" v m (by decide)]
    dsimp only
    rw [extractOrder_cons "OFF" v _ (by decide) (by decide) (by decide) (by decide),
      extractOrder_cons "off" v _ (by decide) (by decide) (by decide) (by decide)]
    dsimp only
    rw [extractPagination_swap_off v (extractOrder (extractColumns m).2).2
      (by
        rw [extractOrder_snd_lookup _ _ (by decide) (by decide) (by decide) (by decide),
          extractColumns_snd_lookup m _ (by decide)]
        exact hlo)
      (by
        rw [extractOrder_snd_lookup _ _ (by decide) (by decide) (by decide) (by decide),
          extractColumns_snd_lookup m _ (by decide)]
        exact hhi)]
  · unfold HandleGet
    rw [extractColumns_cons "LIKE" v m (by decide),
      extractColumns_cons "like" v m (by decide)]
    dsimp only
    rw [extractOrder_cons "LIKE" v _ (by decide) (by decide) (by decide) (by decide),
      extractOrder_cons "like" v _ (by decide) (by decide) (by decide) (by decide)]
    dsimp only
    rw [extractPagination_cons "LIKE" v _ (by decide) (by decide) (by decide) (by decide),
      extractPagination_cons "like" v _ (by decide) (by decide) (by decide) (by decide)]
    cases hE : extractPagination (extractOrder (extractColumns m).2).2 with
    | error e => rfl
    | ok x =>
      dsimp only [Except.map]
      have hsnd : x.2 = (extractTwo "OFF" "off"
          (extractTwo "LIM" "lim" (extractOrder (extractColumns m).2).2).2).2 := by
        unfold extractPagination at hE
        dsimp only at hE
        cases hv : validatePagination
            (extractTwo "LIM" "lim" (extractOrder (extractColumns m).2).2).1
            (extractTwo "OFF" "off"
              (extractTwo "LIM" "lim" (extractOrder (extractColumns m).2).2).2).1 with
        | error e => rw [hv] at hE; cases hE
        | ok u => rw [hv] at hE; cases hE; rfl
      have hl1 : mapLookup x.2 "like" = none := by
        rw [hsnd, extractTwo_snd_lookup_other _ _ _ _ (by decide) (by decide),
          extractTwo_snd_lookup_other _ _ _ _ (by decide) (by decide),
          extractOrder_snd_lookup _ _ (by decide) (by decide) (by decide) (by decide),
          extractColumns_snd_lookup m _ (by decide)]
        exact hlo
      have hl2 : mapLookup x.2 "LIKE" = none := by
        rw [hsnd, extractTwo_snd_lookup_other _ _ _ _ (by decide) (by decide),
          extractTwo_snd_lookup_other _ _ _ _ (by decide) (by decide),
          extractOrder_snd_lookup _ _ (by decide) (by decide) (by decide) (by decide),
          extractColumns_snd_lookup m _ (by decide)]
        exact hhi
      rw [extractLike_swap v x.2 hl1 hl2]

/-- Witness for C3 (amended), at the pair `lim`/`LIM` on a one-entry
map. -/
theorem C3_reserved_option_spellings_witness :
    (("lim", "LIM") ∈ optionPairs) ∧
    HandleGet ["id", "name"] [("LIM", .vInt 2)] =
      HandleGet ["id", "name"] [("lim", .vInt 2)] :=
  ⟨by decide,
   C3_reserved_option_spellings "lim" "LIM" (by decide) ["id", "name"] []
     (.vInt 2) rfl rfl⟩

/-! ## C6: negative pagination -/

/-- The `InvalidPagination` error messages of the pagination block. -/
def paginationErrors : List String :=
  ["LIMIT must be non-negative", "LIMIT must be an integer",
   "OFFSET must be non-negative", "OFFSET must be an integer"]

/-- **C6** (counterexample). With `\x7blim: -1\x7d` and no explicit
projection, `HandleGet` does fail with the negative-limit error — but
only after the `SHOW COLUMNS` round-trip of `getColumns`: the access
trace at the failure is non-empty, so the failure does not precede
every access to the backing store. -/
theorem C6_store_access_precedes_pagination_error :
    HandleGet ["id", "name"] [("lim", .vInt (-1))] =
      ([Access.listColumns], .error "LIMIT must be non-negative") ∧
    ([Access.listColumns] : List Access) ≠ [] :=
  ⟨rfl, by decide⟩

theorem validatePagination_neg (l o : Option AttrValue)
    (h : (∃ n : Int, l = some (.vInt n) ∧ n < 0) ∨
         (∃ n : Int, o = some (.vInt n) ∧ n < 0)) :
    ∃ e, validatePagination l o = .error e ∧ e ∈ paginationErrors := by
  rcases h with ⟨n, hl, hn⟩ | ⟨n, ho, hn⟩
  · subst hl
    refine ⟨"LIMIT must be non-negative", ?_, by decide⟩
    unfold validatePagination
    dsimp only [toInt]
    rw [if_pos hn]
  · subst ho
    cases l with
    | none =>
      refine ⟨"OFFSET must be non-negative", ?_, by decide⟩
      unfold validatePagination
      dsimp only [toInt]
      rw [if_pos hn]
    | some v =>
      cases hv : toInt v with
      | none =>
        refine ⟨"LIMIT must be an integer", ?_, by decide⟩
        unfold validatePagination
        dsimp only
        rw [hv]
      | some j =>
        by_cases hj : j < 0
        · refine ⟨"LIMIT must be non-negative", ?_, by decide⟩
          unfold validatePagination
          dsimp only
          rw [hv]
          dsimp only
          rw [if_pos hj]
        · refine ⟨"OFFSET must be non-negative", ?_, by decide⟩
          unfold validatePagination
          dsimp only
          rw [hv]
          dsimp only
          rw [if_neg hj]
          dsimp only [toInt]
          rw [if_pos hn]

/-- **C6** (amended). For every GET attribute map whose resolved `lim`
or `off` option carries a negative integer, resolution fails with one
of the `InvalidPagination` errors and the final row-retrieval query is
never executed (no `query` access in the trace) — though the schema
column listing may already have been issued, as the counterexample
shows. -/
theorem C6_negative_pagination_no_query (schema : List String) (args : AttrMap)
    (h : (∃ n : Int,
            ((mapLookup args "LIM").or (mapLookup args "lim")) =
              some (.vInt n) ∧ n < 0) ∨
         (∃ n : Int,
            ((mapLookup args "OFF").or (mapLookup args "off")) =
              some (.vInt n) ∧ n < 0)) :
    ∃ e, (HandleGet schema args).2 = .error e ∧ e ∈ paginationErrors ∧
      Access.query ∉ (HandleGet schema args).1 := by
  rcases hc : extractColumns args with ⟨ec, a1⟩
  have ha1 : a1 = (extractColumns args).2 := by rw [hc]
  rcases ho : extractOrder a1 with ⟨ord, a2⟩
  have ha2 : a2 = (extractOrder a1).2 := by rw [ho]
  have hkeep : ∀ k : String, k ≠ "_columns" → k ≠ "up" → k ≠ "UP" →
      k ≠ "down" → k ≠ "DOWN" → mapLookup a2 k = mapLookup args k := by
    intro k h0 h1 h2 h3 h4
    rw [ha2, extractOrder_snd_lookup _ _ h1 h2 h3 h4, ha1,
      extractColumns_snd_lookup _ _ h0]
  have hlim : (extractTwo "LIM" "lim" a2).1 =
      (mapLookup args "LIM").or (mapLookup args "lim") := by
    rw [extractTwo_fst, hkeep "LIM" (by decide) (by decide) (by decide)
      (by decide) (by decide), hkeep "lim" (by decide) (by decide) (by decide)
      (by decide) (by decide)]
  have hoff : (extractTwo "OFF" "off" (extractTwo "LIM" "lim" a2).2).1 =
      (mapLookup args "OFF").or (mapLookup args "off") := by
    rw [extractTwo_fst,
      extractTwo_snd_lookup_other _ _ _ _ (by decide) (by decide),
      extractTwo_snd_lookup_other _ _ _ _ (by decide) (by decide),
      hkeep "OFF" (by decide) (by decide) (by decide) (by decide) (by decide),
      hkeep "off" (by decide) (by decide) (by decide) (by decide) (by decide)]
  obtain ⟨e, hval, hmem⟩ := validatePagination_neg
    (extractTwo "LIM" "lim" a2).1
    (extractTwo "OFF" "off" (extractTwo "LIM" "lim" a2).2).1
    (by rw [hlim, hoff]; exact h)
  have hpag : extractPagination a2 = .error e := by
    unfold extractPagination
    dsimp only
    rw [hval]
  have key : HandleGet schema args =
      ((match ec with
        | some _ => ([] : List Access)
        | none => [Access.listColumns]), .error e) := by
    unfold HandleGet
    simp only [hc, ho, hpag]
    cases ec with
    | none => rfl
    | some cs => rfl
  rw [key]
  refine ⟨e, rfl, hmem, ?_⟩
  cases ec with
  | none =>
    dsimp only
    decide
  | some cs =>
    dsimp only
    decide

/-- Witness for C6 (amended) at `\x7blim: -1\x7d`. -/
theorem C6_negative_pagination_no_query_witness :
    ((∃ n : Int,
        ((mapLookup [("lim", AttrValue.vInt (-1))] "LIM").or
          (mapLookup [("lim", AttrValue.vInt (-1))] "lim")) =
          some (.vInt n) ∧ n < 0) ∨
     (∃ n : Int,
        ((mapLookup [("lim", AttrValue.vInt (-1))] "OFF").or
          (mapLookup [("lim", AttrValue.vInt (-1))] "off")) =
          some (.vInt n) ∧ n < 0)) ∧
    ∃ e, (HandleGet ["id", "name"] [("lim", .vInt (-1))]).2 = .error e ∧
      e ∈ paginationErrors ∧
      Access.query ∉ (HandleGet ["id", "name"] [("lim", .vInt (-1))]).1 :=
  ⟨Or.inl ⟨-1, by decide, by decide⟩,
   C6_negative_pagination_no_query ["id", "name"] [("lim", .vInt (-1))]
     (Or.inl ⟨-1, by decide, by decide⟩)⟩

/-! ## Characterization of a successful `HandleGet` -/

/-- The residual filter map after all option extraction: columns,
ordering, pagination, free-text. -/
def residualAfterOptions (args : AttrMap) : AttrMap :=
  (extractLike (extractTwo "OFF" "off" (extractTwo "LIM" "lim"
    (extractOrder (extractColumns args).2).2).2).2).2

theorem extractPagination_ok_snd {m : AttrMap}
    {x : (Option AttrValue × Option AttrValue) × AttrMap}
    (h : extractPagination m = .ok x) :
    x.2 = (extractTwo "OFF" "off" (extractTwo "LIM" "lim" m).2).2 := by
  unfold extractPagination at h
  dsimp only at h
  cases hv : validatePagination (extractTwo "LIM" "lim" m).1
      (extractTwo "OFF" "off" (extractTwo "LIM" "lim" m).2).1 with
  | error e => rw [hv] at h; cases h
  | ok u => rw [hv] at h; cases h; rfl

theorem HandleGet_ok_spec {schema : List String} {args : AttrMap}
    {accs : List Access} {out : GetOutput}
    (h : HandleGet schema args = (accs, .ok out)) :
    out.residualArgs = residualAfterOptions args ∧
    buildWhere (residualAfterOptions args) = .ok out.whereConds := by
  unfold HandleGet at h
  rcases hc : extractColumns args with ⟨ec, a1⟩
  simp only [hc] at h
  rcases ho : extractOrder a1 with ⟨ord, a2⟩
  simp only [ho] at h
  cases hpg : extractPagination a2 with
  | error e =>
    simp only [hpg] at h
    cases ec <;> simp at h
  | ok x =>
    rcases x with ⟨⟨lv, ov⟩, a3⟩
    simp only [hpg] at h
    rcases hl : extractLike a3 with ⟨lkv, a4⟩
    simp only [hl] at h
    cases hw : buildWhere a4 with
    | error e =>
      simp only [hw] at h
      cases ec <;> simp at h
    | ok conds =>
      simp only [hw] at h
      have ha3 : a3 = (extractTwo "OFF" "off" (extractTwo "LIM" "lim" a2).2).2 :=
        extractPagination_ok_snd hpg
      have hres : residualAfterOptions args = a4 := by
        unfold residualAfterOptions
        rw [hc]
        dsimp only
        rw [ho]
        dsimp only
        rw [← ha3, hl]
      cases ec with
      | none =>
        cases hli : likeInfo lkv schema with
        | error e => simp only [hli] at h; simp at h
        | ok lc =>
          simp only [hli] at h
          have h2 := ((Prod.mk.injEq _ _ _ _).mp h).2
          injection h2 with h3
          cases h3
          exact ⟨hres.symm, by rw [hres]; exact hw⟩
      | some cs =>
        cases hli : likeInfo lkv cs with
        | error e => simp only [hli] at h; simp at h
        | ok lc =>
          simp only [hli] at h
          have h2 := ((Prod.mk.injEq _ _ _ _).mp h).2
          injection h2 with h3
          cases h3
          exact ⟨hres.symm, by rw [hres]; exact hw⟩

/-! ## C9: `HandleGet` consumes its option keys from the caller's map -/

/-- All reserved key spellings `HandleGet` can consume. -/
def reservedGetKeys : List String :=
  ["_columns", "up", "UP", "down", "DOWN",
   "lim", "LIM", "off", "OFF", "like", "LIKE"]

theorem extractColumns_snd_lookup_columns (args : AttrMap)
    (hcols : ∀ v, mapLookup args "_columns" = some v →
      ∃ xs, v = AttrValue.vList xs ∧ ¬xs.isEmpty = true ∧
        ¬(xs.filterMap fun w =>
            match w with
            | AttrValue.vStr s => some s
            | _ => none).isEmpty = true) :
    mapLookup (extractColumns args).2 "_columns" = none := by
  unfold extractColumns
  cases hm : mapLookup args "_columns" with
  | none => exact hm
  | some v =>
    obtain ⟨xs, hv, hne, hsne⟩ := hcols v hm
    subst hv
    simp only [Bool.not_eq_true] at hne hsne
    simp only [hne, Bool.not_false, if_true, hsne]
    exact mapLookup_mapErase_self args "_columns"

/-- **C9.** On a successful GET whose map uses at most one spelling of
each double-spelling option and whose `_columns` value (when present)
is a non-empty list containing a string, the residual map handed to
the WHERE builder — the caller's map after `HandleGet`'s in-place
deletes — holds none of the reserved option keys, and every
non-reserved key is left exactly as the caller supplied it. -/
theorem C9_options_consumed_from_args (schema : List String) (args : AttrMap)
    (accs : List Access) (out : GetOutput)
    (hup : ¬((mapLookup args "up").isSome ∧ (mapLookup args "UP").isSome))
    (hdown : ¬((mapLookup args "down").isSome ∧ (mapLookup args "DOWN").isSome))
    (hlim : ¬((mapLookup args "LIM").isSome ∧ (mapLookup args "lim").isSome))
    (hoff : ¬((mapLookup args "OFF").isSome ∧ (mapLookup args "off").isSome))
    (hlike : ¬((mapLookup args "LIKE").isSome ∧ (mapLookup args "like").isSome))
    (hcols : ∀ v, mapLookup args "_columns" = some v →
      ∃ xs, v = AttrValue.vList xs ∧ ¬xs.isEmpty = true ∧
        ¬(xs.filterMap fun w =>
            match w with
            | AttrValue.vStr s => some s
            | _ => none).isEmpty = true)
    (h : HandleGet schema args = (accs, .ok out)) :
    (∀ k ∈ reservedGetKeys, mapLookup out.residualArgs k = none) ∧
    (∀ k, k ∉ reservedGetKeys →
      mapLookup out.residualArgs k = mapLookup args k) := by
  obtain ⟨hres, _⟩ := HandleGet_ok_spec h
  rw [hres]
  have t1 : ∀ k, k ≠ "_columns" →
      mapLookup (extractColumns args).2 k = mapLookup args k :=
    fun k hk => extractColumns_snd_lookup args k hk
  have t2 : ∀ k, k ≠ "_columns" → k ≠ "up" → k ≠ "UP" → k ≠ "down" → k ≠ "DOWN" →
      mapLookup (extractOrder (extractColumns args).2).2 k = mapLookup args k := by
    intro k h0 h1 h2 h3 h4
    rw [extractOrder_snd_lookup _ _ h1 h2 h3 h4, t1 k h0]
  have t3 : ∀ k, k ≠ "_columns" → k ≠ "up" → k ≠ "UP" → k ≠ "down" → k ≠ "DOWN" →
      k ≠ "LIM" → k ≠ "lim" →
      mapLookup (extractTwo "LIM" "lim"
        (extractOrder (extractColumns args).2).2).2 k = mapLookup args k := by
    intro k h0 h1 h2 h3 h4 h5 h6
    rw [extractTwo_snd_lookup_other _ _ _ _ h5 h6, t2 k h0 h1 h2 h3 h4]
  have t4 : ∀ k, k ≠ "_columns" → k ≠ "up" → k ≠ "UP" → k ≠ "down" → k ≠ "DOWN" →
      k ≠ "LIM" → k ≠ "lim" → k ≠ "OFF" → k ≠ "off" →
      mapLookup (extractTwo "OFF" "off" (extractTwo "LIM" "lim"
        (extractOrder (extractColumns args).2).2).2).2 k = mapLookup args k := by
    intro k h0 h1 h2 h3 h4 h5 h6 h7 h8
    rw [extractTwo_snd_lookup_other _ _ _ _ h7 h8, t3 k h0 h1 h2 h3 h4 h5 h6]
  have t5 : ∀ k, k ≠ "_columns" → k ≠ "up" → k ≠ "UP" → k ≠ "down" → k ≠ "DOWN" →
      k ≠ "LIM" → k ≠ "lim" → k ≠ "OFF" → k ≠ "off" → k ≠ "LIKE" → k ≠ "like" →
      mapLookup (residualAfterOptions args) k = mapLookup args k := by
    intro k h0 h1 h2 h3 h4 h5 h6 h7 h8 h9 h10
    unfold residualAfterOptions extractLike
    rw [extractTwo_snd_lookup_other _ _ _ _ h9 h10,
      t4 k h0 h1 h2 h3 h4 h5 h6 h7 h8]
  constructor
  · -- each reserved spelling is gone from the residual map
    have hcol : mapLookup (residualAfterOptions args) "_columns" = none := by
      unfold residualAfterOptions extractLike
      rw [extractTwo_snd_lookup_other _ _ _ _ (by decide) (by decide),
        extractTwo_snd_lookup_other _ _ _ _ (by decide) (by decide),
        extractTwo_snd_lookup_other _ _ _ _ (by decide) (by decide),
        extractOrder_snd_lookup _ _ (by decide) (by decide) (by decide) (by decide)]
      exact extractColumns_snd_lookup_columns args hcols
    have hupair := extractTwo_snd_lookup_self "up" "UP" (extractColumns args).2
      (by decide)
      (by rw [t1 "up" (by decide), t1 "UP" (by decide)]; exact hup)
    have hu1 : mapLookup (residualAfterOptions args) "up" = none := by
      unfold residualAfterOptions extractLike
      rw [extractTwo_snd_lookup_other _ _ _ _ (by decide) (by decide),
        extractTwo_snd_lookup_other _ _ _ _ (by decide) (by decide),
        extractTwo_snd_lookup_other _ _ _ _ (by decide) (by decide),
        extractOrder_snd,
        extractTwo_snd_lookup_other _ _ _ _ (by decide) (by decide)]
      exact hupair.1
    have hu2 : mapLookup (residualAfterOptions args) "UP" = none := by
      unfold residualAfterOptions extractLike
      rw [extractTwo_snd_lookup_other _ _ _ _ (by decide) (by decide),
        extractTwo_snd_lookup_other _ _ _ _ (by decide) (by decide),
        extractTwo_snd_lookup_other _ _ _ _ (by decide) (by decide),
        extractOrder_snd,
        extractTwo_snd_lookup_other _ _ _ _ (by decide) (by decide)]
      exact hupair.2
    have hdpair := extractTwo_snd_lookup_self "down" "DOWN"
      (extractTwo "up" "UP" (extractColumns args).2).2 (by decide)
      (by
        rw [extractTwo_snd_lookup_other _ _ _ _ (by decide) (by decide),
          extractTwo_snd_lookup_other _ _ _ _ (by decide) (by decide),
          t1 "down" (by decide), t1 "DOWN" (by decide)]
        exact hdown)
    have hd1 : mapLookup (residualAfterOptions args) "down" = none := by
      unfold residualAfterOptions extractLike
      rw [extractTwo_snd_lookup_other _ _ _ _ (by decide) (by decide),
        extractTwo_snd_lookup_other _ _ _ _ (by decide) (by decide),
        extractTwo_snd_lookup_other _ _ _ _ (by decide) (by decide),
        extractOrder_snd]
      exact hdpair.1
    have hd2 : mapLookup (residualAfterOptions args) "DOWN" = none := by
      unfold residualAfterOptions extractLike
      rw [extractTwo_snd_lookup_other _ _ _ _ (by decide) (by decide),
        extractTwo_snd_lookup_other _ _ _ _ (by decide) (by decide),
        extractTwo_snd_lookup_other _ _ _ _ (by decide) (by decide),
        extractOrder_snd]
      exact hdpair.2
    have hlpair := extractTwo_snd_lookup_self "LIM" "lim"
      (extractOrder (extractColumns args).2).2 (by decide)
      (by
        rw [t2 "LIM" (by decide) (by decide) (by decide) (by decide) (by decide),
          t2 "lim" (by decide) (by decide) (by decide) (by decide) (by decide)]
        exact hlim)
    have hl1 : mapLookup (residualAfterOptions args) "lim" = none := by
      unfold residualAfterOptions extractLike
      rw [extractTwo_snd_lookup_other _ _ _ _ (by decide) (by decide),
        extractTwo_snd_lookup_other _ _ _ _ (by decide) (by decide)]
      exact hlpair.2
    have hl2 : mapLookup (residualAfterOptions args) "LIM" = none := by
      unfold residualAfterOptions extractLike
      rw [extractTwo_snd_lookup_other _ _ _ _ (by decide) (by decide),
        extractTwo_snd_lookup_other _ _ _ _ (by decide) (by decide)]
      exact hlpair.1
    have hopair := extractTwo_snd_lookup_self "OFF" "off"
      (extractTwo "LIM" "lim" (extractOrder (extractColumns args).2).2).2
      (by decide)
      (by
        rw [t3 "OFF" (by decide) (by decide) (by decide) (by decide) (by decide)
            (by decide) (by decide),
          t3 "off" (by decide) (by decide) (by decide) (by decide) (by decide)
            (by decide) (by decide)]
        exact hoff)
    have ho1 : mapLookup (residualAfterOptions args) "off" = none := by
      unfold residualAfterOptions extractLike
      rw [extractTwo_snd_lookup_other _ _ _ _ (by decide) (by decide)]
      exact hopair.2
    have ho2 : mapLookup (residualAfterOptions args) "OFF" = none := by
      unfold residualAfterOptions extractLike
      rw [extractTwo_snd_lookup_other _ _ _ _ (by decide) (by decide)]
      exact hopair.1
    have hkpair := extractTwo_snd_lookup_self "LIKE" "like"
      (extractTwo "OFF" "off" (extractTwo "LIM" "lim"
        (extractOrder (extractColumns args).2).2).2).2
      (by decide)
      (by
        rw [t4 "LIKE" (by decide) (by decide) (by decide) (by decide) (by decide)
            (by decide) (by decide) (by decide) (by decide),
          t4 "like" (by decide) (by decide) (by decide) (by decide) (by decide)
            (by decide) (by decide) (by decide) (by decide)]
        exact hlike)
    have hk1 : mapLookup (residualAfterOptions args) "like" = none := hkpair.2
    have hk2 : mapLookup (residualAfterOptions args) "LIKE" = none := hkpair.1
    intro k hk
    fin_cases hk
    · exact hcol
    · exact hu1
    · exact hu2
    · exact hd1
    · exact hd2
    · exact hl1
    · exact hl2
    · exact ho1
    · exact ho2
    · exact hk1
    · exact hk2
  · intro k hk
    refine t5 k ?_ ?_ ?_ ?_ ?_ ?_ ?_ ?_ ?_ ?_ ?_ <;>
      exact fun he => hk (by rw [he]; decide)

/-- Witness for C9 at `\x7b_columns: ['name'], lim: 2, id: 7\x7d`:
the options are deleted, the `id` filter stays untouched. -/
theorem C9_options_consumed_from_args_witness :
    HandleGet ["id", "name"]
        [("_columns", .vList [.vStr "name"]), ("lim", .vInt 2), ("id", .vInt 7)] =
      ([Access.query],
       .ok { selectedCols := ["name"],
             whereConds := [.eq "id" (.vInt 7)],
             likeClause := none, orderBy := none,
             limit := some (.vInt 2), offset := none,
             residualArgs := [("id", .vInt 7)] }) ∧
    ((∀ k ∈ reservedGetKeys,
        mapLookup ([("id", AttrValue.vInt 7)] : AttrMap) k = none) ∧
     (∀ k, k ∉ reservedGetKeys →
        mapLookup ([("id", AttrValue.vInt 7)] : AttrMap) k =
          mapLookup [("_columns", .vList [.vStr "name"]), ("lim", .vInt 2),
            ("id", .vInt 7)] k)) :=
  ⟨rfl,
   C9_options_consumed_from_args ["id", "name"]
     [("_columns", .vList [.vStr "name"]), ("lim", .vInt 2), ("id", .vInt 7)]
     [Access.query]
     { selectedCols := ["name"], whereConds := [.eq "id" (.vInt 7)],
       likeClause := none, orderBy := none, limit := some (.vInt 2),
       offset := none, residualArgs := [("id", .vInt 7)] }
     (by decide) (by decide) (by decide) (by decide) (by decide)
     (by
       intro v hv
       refine ⟨[.vStr "name"], ?_, by decide, by decide⟩
       cases hv
       rfl)
     rfl⟩

/-! ## C7: unordered ranges pass through unvalidated -/

theorem residualAfterOptions_lookup_notreserved (args : AttrMap) (k : String)
    (hk : k ∉ reservedGetKeys) :
    mapLookup (residualAfterOptions args) k = mapLookup args k := by
  have ne : ∀ s : String, s ∈ reservedGetKeys → k ≠ s :=
    fun s hs he => hk (he ▸ hs)
  unfold residualAfterOptions extractLike
  rw [extractTwo_snd_lookup_other _ _ _ _ (ne _ (by decide)) (ne _ (by decide)),
    extractTwo_snd_lookup_other _ _ _ _ (ne _ (by decide)) (ne _ (by decide)),
    extractTwo_snd_lookup_other _ _ _ _ (ne _ (by decide)) (ne _ (by decide)),
    extractOrder_snd_lookup _ _ (ne _ (by decide)) (ne _ (by decide))
      (ne _ (by decide)) (ne _ (by decide)),
    extractColumns_snd_lookup _ _ (ne _ (by decide))]

theorem buildWhere_mem {m : AttrMap} {conds : List Cond}
    (h : buildWhere m = .ok conds) {p : String × AttrValue} (hp : p ∈ m)
    {c : Cond} (hc : condOfEntry p = .ok c) : c ∈ conds := by
  induction m generalizing conds with
  | nil => cases hp
  | cons q rest ih =>
    unfold buildWhere at h
    cases hq : condOfEntry q with
    | error e => rw [hq] at h; cases h
    | ok c0 =>
      rw [hq] at h
      cases hr : buildWhere rest with
      | error e => rw [hr] at h; cases h
      | ok cs =>
        rw [hr] at h
        injection h with h2
        subst h2
        rcases List.mem_cons.mp hp with hph | hpt
        · subst hph
          rw [hq] at hc
          injection hc with hc2
          exact hc2 ▸ List.mem_cons_self _ _
        · exact List.mem_cons_of_mem _ (ih hr hpt)

/-- **C7.** `ParseArg "\x7bid: (5, 2)\x7d"` succeeds with
`Range(5,2)` — ordering is not validated — and for every residual
filter carrying `Range(lo,hi)` (any ordering, `lo > hi` included), a
successful `HandleGet` puts the inclusive condition
`field >= lo AND field <= hi` in the WHERE clause unchanged. -/
theorem C7_range_not_validated :
    ParseArg "{id: (5, 2)}" = .ok (some [("id", .vRange [5, 2])]) ∧
    ∀ (schema : List String) (args : AttrMap) (field : String) (lo hi : Int)
      (accs : List Access) (out : GetOutput),
      mapLookup args field = some (.vRange [lo, hi]) →
      field ∉ reservedGetKeys →
      HandleGet schema args = (accs, .ok out) →
      Cond.between field lo hi ∈ out.whereConds := by
  refine ⟨rfl, ?_⟩
  intro schema args field lo hi accs out hf hres hok
  obtain ⟨_, hwhere⟩ := HandleGet_ok_spec hok
  have hf2 : mapLookup (residualAfterOptions args) field =
      some (.vRange [lo, hi]) := by
    rw [residualAfterOptions_lookup_notreserved args field hres]
    exact hf
  exact buildWhere_mem hwhere (mapLookup_eq_some_mem hf2) rfl

/-- Witness for C7: the parsed `\x7bid: (5, 2)\x7d` filter reaches
the WHERE clause as `id >= 5 AND id <= 2`. -/
theorem C7_range_not_validated_witness :
    (mapLookup [("id", AttrValue.vRange [5, 2])] "id" =
      some (.vRange [5, 2])) ∧
    ("id" ∉ reservedGetKeys) ∧
    Cond.between "id" 5 2 ∈
      (GetOutput.mk ["id", "name"] [.between "id" 5 2] none none none none
        [("id", .vRange [5, 2])]).whereConds :=
  ⟨by decide, by decide,
   (C7_range_not_validated.2 ["id", "name"] [("id", .vRange [5, 2])] "id" 5 2
     [Access.listColumns, Access.query]
     (GetOutput.mk ["id", "name"] [.between "id" 5 2] none none none none
       [("id", .vRange [5, 2])])
     (by decide) (by decide) rfl)⟩

/-! ## C8: decimal strings round-trip through `ParseArg` -/

/-- Little-endian digit value. -/
def ofDigitsRev : List Nat → Nat
  | [] => 0
  | d :: ds => d + 10 * ofDigitsRev ds

theorem digitChar_toNat {d : Nat} (h : d < 10) : (digitChar d).toNat = 48 + d := by
  interval_cases d <;> decide

theorem isDigitChar_digitChar {d : Nat} (h : d < 10) :
    isDigitChar (digitChar d) = true := by
  interval_cases d <;> decide

theorem digitVal_digitChar {d : Nat} (h : d < 10) : digitVal (digitChar d) = d := by
  unfold digitVal
  rw [digitChar_toNat h]
  omega

theorem isSpaceChar_digitChar {d : Nat} (h : d < 10) :
    isSpaceChar (digitChar d) = false := by
  interval_cases d <;> decide

theorem digitsRevFuel_spec :
    ∀ fuel n, n < fuel →
      digitsRevFuel fuel n ≠ [] ∧
      (∀ d ∈ digitsRevFuel fuel n, d < 10) ∧
      ofDigitsRev (digitsRevFuel fuel n) = n := by
  intro fuel
  induction fuel with
  | zero => intro n hn; omega
  | succ fuel ih =>
    intro n hn
    by_cases h10 : n < 10
    · unfold digitsRevFuel
      rw [if_pos h10]
      refine ⟨by simp, ?_, ?_⟩
      · intro d hd
        rcases List.mem_singleton.mp hd with rfl
        exact h10
      · rw [show ofDigitsRev [n] = n + 10 * ofDigitsRev [] from rfl,
          show ofDigitsRev ([] : List Nat) = 0 from rfl]
        omega
    · unfold digitsRevFuel
      rw [if_neg h10]
      have hlt : n / 10 < fuel := by omega
      obtain ⟨hne, hdig, hval⟩ := ih (n / 10) hlt
      refine ⟨by simp, ?_, ?_⟩
      · intro d hd
        rcases List.mem_cons.mp hd with rfl | hd2
        · omega
        · exact hdig d hd2
      · rw [show ofDigitsRev (n % 10 :: digitsRevFuel fuel (n / 10)) =
            n % 10 + 10 * ofDigitsRev (digitsRevFuel fuel (n / 10)) from rfl,
          hval]
        omega

theorem foldDigits_rev_map (ds : List Nat) (hds : ∀ d ∈ ds, d < 10) :
    ∀ acc : Nat,
      List.foldl (fun a c => a * 10 + digitVal c) acc
        ((ds.reverse).map digitChar) =
      acc * 10 ^ ds.length + ofDigitsRev ds := by
  induction ds with
  | nil => intro acc; simp [ofDigitsRev]
  | cons d rest ih =>
    intro acc
    have hd : d < 10 := hds d (List.mem_cons_self _ _)
    have hrest : ∀ x ∈ rest, x < 10 :=
      fun x hx => hds x (List.mem_cons_of_mem _ hx)
    rw [List.reverse_cons, List.map_append, List.foldl_append, ih hrest acc]
    simp only [List.map_cons, List.map_nil, List.foldl_cons, List.foldl_nil,
      List.length_cons]
    rw [digitVal_digitChar hd,
      show ofDigitsRev (d :: rest) = d + 10 * ofDigitsRev rest from rfl]
    ring

theorem foldDigits_decimalChars (n : Nat) : foldDigits (decimalChars n) = n := by
  obtain ⟨hne, hdig, hval⟩ := digitsRevFuel_spec (n + 1) n (Nat.lt_succ_self n)
  unfold foldDigits decimalChars
  rw [foldDigits_rev_map _ hdig 0, hval]
  simp

theorem decimalChars_ne_nil (n : Nat) : decimalChars n ≠ [] := by
  obtain ⟨hne, _, _⟩ := digitsRevFuel_spec (n + 1) n (Nat.lt_succ_self n)
  unfold decimalChars
  intro h
  rw [List.map_eq_nil_iff, List.reverse_eq_nil_iff] at h
  exact hne h

theorem decimalChars_all_digits (n : Nat) :
    (decimalChars n).all isDigitChar = true := by
  obtain ⟨_, hdig, _⟩ := digitsRevFuel_spec (n + 1) n (Nat.lt_succ_self n)
  rw [List.all_eq_true]
  intro c hc
  unfold decimalChars at hc
  obtain ⟨d, hd, rfl⟩ := List.mem_map.mp hc
  exact isDigitChar_digitChar (hdig d (List.mem_reverse.mp hd))

theorem dropWhile_eq_self_of_none {p : Char → Bool} {l : Chars}
    (h : ∀ c ∈ l, p c = false) : l.dropWhile p = l := by
  cases l with
  | nil => rfl
  | cons c cs =>
    rw [List.dropWhile_cons, h c (List.mem_cons_self _ _)]
    simp

theorem trimSpace_of_no_space {l : Chars}
    (h : ∀ c ∈ l, isSpaceChar c = false) : trimSpace l = l := by
  unfold trimSpace dropSpaces
  rw [dropWhile_eq_self_of_none h,
    dropWhile_eq_self_of_none (fun c hc => h c (List.mem_reverse.mp hc)),
    List.reverse_reverse]

theorem isSpaceChar_eq_false_of_digit {c : Char} (h : isDigitChar c = true) :
    isSpaceChar c = false := by
  unfold isSpaceChar
  have hx : ∀ x : Char, isDigitChar x = false → decide (c = x) = false := by
    intro x hxd
    rw [decide_eq_false_iff_not]
    intro he
    rw [he, hxd] at h
    cases h
  rw [hx ' ' (by decide), hx '\t' (by decide), hx '\n' (by decide),
    hx '\r' (by decide)]
  rfl

/-- **C8** (amended). For every `n < 2^63`, `ParseArg` on the decimal
string of `n` succeeds and yields exactly `\x7bid: n\x7d`. (Beyond
`2^63 - 1` the ignored `strconv.Atoi` range error clamps the value —
see the counterexample.) -/
theorem C8_parse_decimal (n : Nat) (h : n < 2 ^ 63) :
    ParseArg (decimalOfNat n) = .ok (some [("id", .vInt n)]) := by
  unfold ParseArg
  have hne : ¬ decimalOfNat n = "" := by
    unfold decimalOfNat
    intro he
    exact decimalChars_ne_nil n (congrArg String.data he)
  rw [if_neg hne]
  have hdata : (decimalOfNat n).data = decimalChars n := rfl
  have htrim : trimSpace (decimalOfNat n).data = decimalChars n := by
    rw [hdata]
    exact trimSpace_of_no_space (fun c hc =>
      isSpaceChar_eq_false_of_digit
        (List.all_eq_true.mp (decimalChars_all_digits n) c hc))
  dsimp only
  rw [htrim]
  have hcond : (!(decimalChars n).isEmpty && (decimalChars n).all isDigitChar)
      = true := by
    rw [decimalChars_all_digits n, Bool.and_true, Bool.not_eq_true',
      List.isEmpty_eq_false_iff_exists_mem]
    cases hd : decimalChars n with
    | nil => exact absurd hd (decimalChars_ne_nil n)
    | cons c cs => exact ⟨c, List.mem_cons_self _ _⟩
  rw [if_pos hcond]
  unfold goAtoiClamped
  rw [foldDigits_decimalChars n]
  have : min n maxInt64 = n := by
    unfold maxInt64
    omega
  rw [this]

/-- Witness for C8 (amended) at `n = 14` (the README's `GET 14`). -/
theorem C8_parse_decimal_witness :
    14 < 2 ^ 63 ∧
    ParseArg (decimalOfNat 14) = .ok (some [("id", .vInt 14)]) :=
  ⟨by decide, C8_parse_decimal 14 (by decide)⟩

/-- **C8** (counterexample). At `n = 2^63` the decimal string still
matches the integer special case, but the ignored `strconv.Atoi`
range error makes `ParseArg` return the clamped `math.MaxInt64`, not
`n`: the claim fails for naturals beyond the 64-bit range. -/
theorem C8_overflow_clamps :
    ParseArg (decimalOfNat (2 ^ 63)) =
      .ok (some [("id", .vInt (2 ^ 63 - 1))]) ∧
    some [("id", AttrValue.vInt (2 ^ 63 - 1))] ≠
      some [("id", AttrValue.vInt (2 ^ 63))] := by
  constructor
  · rfl
  · intro h
    injection h with h2
    cases h2

/-! ## C1: the bare-identifier projection clause

The expression `\x7bname, email, lim: 2\x7d` is modelled as the
family `exprOf ids rest`: a brace-wrapped, comma-separated sequence of
bare identifiers followed by integer-valued `key: value` clauses. -/

/-- A non-empty all-`\w` token. -/
def isIdentChars (s : Chars) : Bool := !s.isEmpty && s.all isWordChar

/-- The text of one `key: value` clause. -/
def clauseOfKV (p : String × Nat) : Chars :=
  p.1.data ++ ':' :: ' ' :: decimalChars p.2

/-- The comma-separated parts of the expression: identifiers first,
then the key-value clauses, every part after the first carrying the
standard space after the comma. -/
def partsOf (ids : List String) (rest : List (String × Nat)) : List Chars :=
  match ids.map String.data ++ rest.map clauseOfKV with
  | [] => []
  | p :: ps => p :: ps.map (fun q => ' ' :: q)

/-- The argument expression `\x7bp1, p2, ...\x7d`. -/
def exprOf (ids : List String) (rest : List (String × Nat)) : String :=
  String.mk ('{' :: (joinComma (partsOf ids rest) ++ ['}']))

/-! ### Character-class facts -/

theorem word_ne {c x : Char} (h : isWordChar c = true)
    (hx : isWordChar x = false) : c ≠ x := by
  intro he
  rw [he, hx] at h
  cases h

theorem isWordChar_of_digit {c : Char} (h : isDigitChar c = true) :
    isWordChar c = true := by
  unfold isDigitChar at h
  unfold isWordChar
  rw [h]
  rfl

theorem isSpaceChar_eq_false_of_word {c : Char} (h : isWordChar c = true) :
    isSpaceChar c = false := by
  unfold isSpaceChar
  have hx : ∀ x : Char, isWordChar x = false → decide (c = x) = false := by
    intro x hxd
    rw [decide_eq_false_iff_not]
    intro he
    rw [he, hxd] at h
    cases h
  rw [hx ' ' (by decide), hx '\t' (by decide), hx '\n' (by decide),
    hx '\r' (by decide)]
  rfl

theorem identChars_all {s : Chars} (h : isIdentChars s = true) :
    ∀ c ∈ s, isWordChar c = true := by
  unfold isIdentChars at h
  rw [Bool.and_eq_true] at h
  exact List.all_eq_true.mp h.2

theorem identChars_ne_nil {s : Chars} (h : isIdentChars s = true) : s ≠ [] := by
  unfold isIdentChars at h
  rw [Bool.and_eq_true] at h
  have := h.1
  rw [Bool.not_eq_true'] at this
  intro he
  rw [he] at this
  cases this

/-- Membership in a comma-join: a comma or a character of one part. -/
theorem mem_joinComma {c : Char} : ∀ {ps : List Chars},
    c ∈ joinComma ps → c = ',' ∨ ∃ p ∈ ps, c ∈ p := by
  intro ps
  induction ps with
  | nil => intro h; cases h
  | cons p ps ih =>
    intro h
    cases ps with
    | nil =>
      rw [show joinComma [p] = p from rfl] at h
      exact Or.inr ⟨p, List.mem_cons_self _ _, h⟩
    | cons q qs =>
      rw [show joinComma (p :: q :: qs) = p ++ ',' :: joinComma (q :: qs)
        from rfl] at h
      rcases List.mem_append.mp h with hp | hc
      · exact Or.inr ⟨p, List.mem_cons_self _ _, hp⟩
      · rcases List.mem_cons.mp hc with rfl | hrest
        · exact Or.inl rfl
        · rcases ih hrest with h1 | ⟨r, hr, hcr⟩
          · exact Or.inl h1
          · exact Or.inr ⟨r, List.mem_cons_of_mem _ hr, hcr⟩

/-- Every character of the constructed expression's inner text is a
word character, a comma, a space or a colon. -/
theorem mem_inner_class (ids : List String) (rest : List (String × Nat))
    (hidw : ∀ s ∈ ids, isIdentChars s.data = true)
    (hkw : ∀ p ∈ rest, isIdentChars p.1.data = true) :
    ∀ c ∈ joinComma (partsOf ids rest),
      isWordChar c = true ∨ c = ',' ∨ c = ' ' ∨ c = ':' := by
  intro c hc
  have hpart : ∀ p ∈ ids.map String.data ++ rest.map clauseOfKV,
      ∀ x ∈ p, isWordChar x = true ∨ x = ' ' ∨ x = ':' := by
    intro p hp x hx
    rcases List.mem_append.mp hp with hid | hkv
    · obtain ⟨s, hs, rfl⟩ := List.mem_map.mp hid
      exact Or.inl (identChars_all (hidw s hs) x hx)
    · obtain ⟨q, hq, rfl⟩ := List.mem_map.mp hkv
      unfold clauseOfKV at hx
      rcases List.mem_append.mp hx with hk | hrest
      · exact Or.inl (identChars_all (hkw q hq) x hk)
      · rcases List.mem_cons.mp hrest with rfl | hr2
        · exact Or.inr (Or.inr rfl)
        · rcases List.mem_cons.mp hr2 with rfl | hd
          · exact Or.inr (Or.inl rfl)
          · exact Or.inl (isWordChar_of_digit
              (List.all_eq_true.mp (decimalChars_all_digits q.2) x hd))
  rcases mem_joinComma hc with rfl | ⟨p, hp, hcp⟩
  · exact Or.inr (Or.inl rfl)
  · unfold partsOf at hp
    cases hax : ids.map String.data ++ rest.map clauseOfKV with
    | nil => rw [hax] at hp; cases hp
    | cons a as =>
      rw [hax] at hp
      rcases List.mem_cons.mp hp with rfl | hmem
      · rcases hpart p (by rw [hax]; exact List.mem_cons_self _ _) c hcp with
          h | h | h
        · exact Or.inl h
        · exact Or.inr (Or.inr (Or.inl h))
        · exact Or.inr (Or.inr (Or.inr h))
      · obtain ⟨q, hq, rfl⟩ := List.mem_map.mp hmem
        rcases List.mem_cons.mp hcp with rfl | hcq
        · exact Or.inr (Or.inr (Or.inl rfl))
        · rcases hpart q (by rw [hax]; exact List.mem_cons_of_mem _ hq) c hcq
            with h | h | h
          · exact Or.inl h
          · exact Or.inr (Or.inr (Or.inl h))
          · exact Or.inr (Or.inr (Or.inr h))

/-! ### No-op facts for the regex stages on bracket-free text -/

theorem tryMultiAssignAt_none {c : Char} {cs : Chars} (h : c ≠ '[') :
    tryMultiAssignAt (c :: cs) = none := by
  unfold tryMultiAssignAt
  split
  · rename_i rest heq
    injection heq with h1 _
    exact absurd h1 h
  · rfl

theorem findMultiAssigns_nil {s : Chars} (h : '[' ∉ s) :
    ∀ fuel, findMultiAssigns fuel s = [] := by
  induction s with
  | nil => intro fuel; cases fuel <;> rfl
  | cons c cs ih =>
    intro fuel
    cases fuel with
    | zero => rfl
    | succ fuel =>
      unfold findMultiAssigns
      rw [tryMultiAssignAt_none (fun he => h (he ▸ List.mem_cons_self _ _))]
      exact ih (fun hm => h (List.mem_cons_of_mem _ hm)) fuel

theorem multiAssignStage_id {t : Chars} (h : '[' ∉ t) (r : AttrMap) :
    multiAssignStage t r = (t, r) := by
  unfold multiAssignStage
  rw [findMultiAssigns_nil h]
  rfl

theorem mem_of_mem_dropSpaces {c : Char} {s : Chars} (h : c ∈ dropSpaces s) :
    c ∈ s :=
  (List.dropWhile_sublist _).subset h

theorem tryRangeAt_paren {s : Chars} {r : Chars × Chars × Chars}
    (h : tryRangeAt s = some r) : '(' ∈ s := by
  unfold tryRangeAt at h
  split at h
  · rename_i rest
    split at h
    · rename_i rest2 heq2
      split at h
      · rename_i rest3 heq3
        have h1 : '(' ∈ dropSpaces rest2 := by
          rw [heq3]; exact List.mem_cons_self _ _
        have h2 : '(' ∈ rest2 := mem_of_mem_dropSpaces h1
        have h3 : '(' ∈ dropSpaces rest := by
          rw [heq2]; exact List.mem_cons_of_mem _ h2
        exact List.mem_cons_of_mem _ (List.mem_cons_of_mem _
          (mem_of_mem_dropSpaces h3))
      · cases h
    · cases h
  · cases h

theorem rangeFindFrom_none {s : Chars} (h : '(' ∉ s) :
    rangeFindFrom s = none := by
  induction s with
  | nil => rfl
  | cons c cs ih =>
    unfold rangeFindFrom
    cases ht : tryRangeAt (c :: cs) with
    | some r => exact absurd (tryRangeAt_paren ht) h
    | none => exact ih (fun hm => h (List.mem_cons_of_mem _ hm))

theorem rangeStage_id {t : Chars} (h : '(' ∉ t) (r : AttrMap) :
    rangeStage t r = .ok (t, r) := by
  unfold rangeStage
  rw [rangeFindFrom_none h]

theorem tryArrayAt_bracket {s : Chars} {r : Chars × Chars × Chars}
    (h : tryArrayAt s = some r) : '[' ∈ s := by
  unfold tryArrayAt at h
  by_cases hk : (s.takeWhile isWordChar).isEmpty
  · rw [if_pos hk] at h; cases h
  · rw [if_neg hk] at h
    split at h
    · rename_i rest2 heq2
      split at h
      · rename_i rest3 heq3
        have h1 : '[' ∈ dropSpaces rest2 := by
          rw [heq3]; exact List.mem_cons_self _ _
        have h2 : '[' ∈ rest2 := mem_of_mem_dropSpaces h1
        have h3 : '[' ∈ dropSpaces (s.drop (s.takeWhile isWordChar).length) := by
          rw [heq2]; exact List.mem_cons_of_mem _ h2
        exact (List.drop_sublist _ _).subset (mem_of_mem_dropSpaces h3)
      · cases h
    · cases h

theorem findArrays_nil {s : Chars} (h : '[' ∉ s) :
    ∀ fuel, findArrays fuel s = [] := by
  induction s with
  | nil => intro fuel; cases fuel <;> rfl
  | cons c cs ih =>
    intro fuel
    cases fuel with
    | zero => rfl
    | succ fuel =>
      unfold findArrays
      cases ht : tryArrayAt (c :: cs) with
      | some r => exact absurd (tryArrayAt_bracket ht) h
      | none => exact ih (fun hm => h (List.mem_cons_of_mem _ hm)) fuel

theorem arraysStage_id {t : Chars} (h : '[' ∉ t) (r : AttrMap) :
    arraysStage t r = (t, r) := by
  unfold arraysStage
  rw [findArrays_nil h]
  rfl

/-! ### No-op facts for the cleanup stage -/

theorem dropWhile_cons_of_neg {p : Char → Bool} {c : Char} {cs : Chars}
    (h : p c = false) : (c :: cs).dropWhile p = c :: cs := by
  rw [List.dropWhile_cons, h]
  simp

theorem trimSpace_eq_self {s : Chars}
    (hh : ∀ c, s.head? = some c → isSpaceChar c = false)
    (hl : ∀ c, s.getLast? = some c → isSpaceChar c = false) :
    trimSpace s = s := by
  cases s with
  | nil => rfl
  | cons c cs =>
    unfold trimSpace dropSpaces
    rw [dropWhile_cons_of_neg (hh c rfl)]
    have hlast : ∀ x, (c :: cs).reverse.head? = some x → isSpaceChar x = false := by
      intro x hx
      rw [List.head?_reverse] at hx
      exact hl x hx
    cases hrev : (c :: cs).reverse with
    | nil => simp at hrev
    | cons d ds =>
      have hd : isSpaceChar d = false := hlast d (by rw [hrev]; rfl)
      rw [dropWhile_cons_of_neg hd, ← hrev, List.reverse_reverse]

/-- Scanner for the regex `,\s*,`. -/
def hasCSC : Chars → Bool
  | [] => false
  | c :: cs =>
    if c = ',' then (afterCommaSpaces cs).isSome || hasCSC cs
    else hasCSC cs

theorem replaceDoubleCommas_id {s : Chars} (h : hasCSC s = false) :
    ∀ fuel, replaceDoubleCommas fuel s = s := by
  induction s with
  | nil => intro fuel; cases fuel <;> rfl
  | cons c cs ih =>
    intro fuel
    unfold hasCSC at h
    cases fuel with
    | zero => rfl
    | succ fuel =>
      unfold replaceDoubleCommas
      by_cases hc : c = ','
      · rw [if_pos hc] at h ⊢
        rw [Bool.or_eq_false_iff] at h
        obtain ⟨h1, h2⟩ := h
        have hn : afterCommaSpaces cs = none := by
          cases hx : afterCommaSpaces cs with
          | none => rfl
          | some r => rw [hx] at h1; exact absurd h1 (by simp)
        rw [hn]
        rw [hc, ih h2 fuel]
      · rw [if_neg hc] at h ⊢
        rw [ih h fuel]

theorem stripLeadComma_eq_self {c : Char} {cs : Chars} (hc : c ≠ ',') :
    stripLeadComma (c :: cs) = c :: cs := by
  unfold stripLeadComma
  split
  · rename_i heq
    injection heq with h1 _
    exact absurd h1 hc
  · rfl

theorem stripEdgeCommas_id {s : Chars}
    (hh : ∀ c, s.head? = some c → c ≠ ',')
    (hl : ∀ c, s.getLast? = some c → c ≠ ',') :
    stripEdgeCommas s = s := by
  cases s with
  | nil => rfl
  | cons c cs =>
    unfold stripEdgeCommas
    rw [stripLeadComma_eq_self (hh c rfl)]
    have hend : endsWithChar ',' (c :: cs) = false := by
      unfold endsWithChar
      cases hg : (c :: cs).getLast? with
      | none => rfl
      | some d =>
        rw [decide_eq_false_iff_not]
        exact hl d hg
    rw [hend]
    simp

/-! ### Structure of the comma-join -/

theorem hasCSC_cons (c : Char) (cs : Chars) :
    hasCSC (c :: cs) =
      if c = ',' then (afterCommaSpaces cs).isSome || hasCSC cs
      else hasCSC cs := rfl

theorem hasCSC_no_comma {s : Chars} (h : ',' ∉ s) : hasCSC s = false := by
  induction s with
  | nil => rfl
  | cons c cs ih =>
    have hc : ¬(c = ',') := by
      intro he
      apply h
      rw [← he]
      exact List.mem_cons_self _ _
    rw [hasCSC_cons, if_neg hc]
    exact ih (fun hm => h (List.mem_cons_of_mem _ hm))

theorem hasCSC_append_no_comma {a : Chars} (b : Chars) (h : ',' ∉ a) :
    hasCSC (a ++ b) = hasCSC b := by
  induction a with
  | nil => rfl
  | cons c cs ih =>
    have hc : ¬(c = ',') := by
      intro he
      apply h
      rw [← he]
      exact List.mem_cons_self _ _
    rw [List.cons_append, hasCSC_cons, if_neg hc]
    exact ih (fun hm => h (List.mem_cons_of_mem _ hm))

theorem afterCommaSpaces_none {s : Chars} {c : Char} {z : Chars}
    (hdrop : dropSpaces s = c :: z) (hc : c ≠ ',') :
    afterCommaSpaces s = none := by
  unfold afterCommaSpaces
  rw [hdrop]
  split
  · rename_i rest heq
    injection heq with h1 _
    exact absurd h1 hc
  · rfl

theorem dropSpaces_append_of_cons {a : Chars} (b : Chars) {c : Char} {z : Chars}
    (h : dropSpaces a = c :: z) : dropSpaces (a ++ b) = c :: (z ++ b) := by
  induction a with
  | nil => cases h
  | cons x xs ih =>
    unfold dropSpaces at h ⊢
    rw [List.cons_append, List.dropWhile_cons]
    rw [List.dropWhile_cons] at h
    by_cases hx : isSpaceChar x = true
    · rw [hx] at h ⊢
      simp only [if_true] at h ⊢
      exact ih h
    · rw [Bool.not_eq_true] at hx
      rw [hx] at h ⊢
      simp only [Bool.false_eq_true, if_false] at h ⊢
      injection h with h1 h2
      rw [h1, h2]

theorem head?_joinComma {p : Chars} (ps : List Chars) (hp : p ≠ []) :
    (joinComma (p :: ps)).head? = p.head? := by
  cases p with
  | nil => exact absurd rfl hp
  | cons x xs => cases ps <;> rfl

theorem getLast?_joinComma : ∀ {ps : List Chars} {p : Chars},
    ps.getLast? = some p → p ≠ [] →
    (joinComma ps).getLast? = p.getLast? := by
  intro ps
  induction ps with
  | nil => intro p h _; cases h
  | cons q qs ih =>
    intro p h hp
    cases qs with
    | nil =>
      rw [show (q :: []).getLast? = some q from rfl] at h
      injection h with h1
      rw [show joinComma [q] = q from rfl, h1]
    | cons r rs =>
      rw [show (q :: r :: rs).getLast? = (r :: rs).getLast? from rfl] at h
      have hps : p.getLast? ≠ none := by
        intro hno
        exact hp (List.getLast?_eq_none_iff.mp hno)
      have hne : joinComma (r :: rs) ≠ [] := by
        intro he
        apply hps
        rw [← ih h hp, he]
        rfl
      rw [show joinComma (q :: r :: rs) = q ++ ',' :: joinComma (r :: rs)
        from rfl]
      rw [List.getLast?_append_of_ne_nil _ (by intro he; cases he)]
      rw [show (',' :: joinComma (r :: rs) : Chars) = [','] ++ joinComma (r :: rs)
        from rfl]
      rw [List.getLast?_append_of_ne_nil _ hne]
      exact ih h hp

theorem splitOnChar_cons (sep c : Char) (cs : Chars) :
    splitOnChar sep (c :: cs) =
      match splitOnChar sep cs with
      | [] => [[]]
      | p :: ps => if c = sep then [] :: p :: ps else (c :: p) :: ps := rfl

theorem splitOnChar_ne_nil (sep : Char) : ∀ s : Chars, splitOnChar sep s ≠ [] := by
  intro s
  induction s with
  | nil => intro h; cases h
  | cons c cs ih =>
    rw [splitOnChar_cons]
    cases hs : splitOnChar sep cs with
    | nil => intro h; cases h
    | cons p ps =>
      dsimp only
      by_cases hc : c = sep
      · rw [if_pos hc]; intro h; cases h
      · rw [if_neg hc]; intro h; cases h

theorem splitOnChar_no_sep {sep : Char} {s : Chars} (h : sep ∉ s) :
    splitOnChar sep s = [s] := by
  induction s with
  | nil => rfl
  | cons c cs ih =>
    have hc : ¬(c = sep) := by
      intro he
      apply h
      rw [← he]
      exact List.mem_cons_self _ _
    rw [splitOnChar_cons, ih (fun hm => h (List.mem_cons_of_mem _ hm))]
    dsimp only
    rw [if_neg hc]

theorem splitOnChar_sep_append {sep : Char} {a : Chars} (b : Chars)
    (h : sep ∉ a) :
    splitOnChar sep (a ++ sep :: b) = a :: splitOnChar sep b := by
  induction a with
  | nil =>
    rw [List.nil_append, splitOnChar_cons]
    cases hs : splitOnChar sep b with
    | nil => exact absurd hs (splitOnChar_ne_nil sep b)
    | cons p ps =>
      dsimp only
      rw [if_pos rfl, ← hs]
  | cons c cs ih =>
    have hc : ¬(c = sep) := by
      intro he
      apply h
      rw [← he]
      exact List.mem_cons_self _ _
    rw [List.cons_append, splitOnChar_cons,
      ih (fun hm => h (List.mem_cons_of_mem _ hm))]
    dsimp only
    rw [if_neg hc]

theorem splitOnChar_joinComma : ∀ {ps : List Chars},
    ps ≠ [] → (∀ p ∈ ps, ',' ∉ p) →
    splitOnChar ',' (joinComma ps) = ps := by
  intro ps
  induction ps with
  | nil => intro h _; exact absurd rfl h
  | cons p qs ih =>
    intro _ hnc
    cases qs with
    | nil =>
      rw [show joinComma [p] = p from rfl]
      exact splitOnChar_no_sep (hnc p (List.mem_cons_self _ _))
    | cons q rs =>
      rw [show joinComma (p :: q :: rs) = p ++ ',' :: joinComma (q :: rs)
        from rfl]
      rw [splitOnChar_sep_append _ (hnc p (List.mem_cons_self _ _))]
      rw [ih (by intro h; cases h)
        (fun r hr => hnc r (List.mem_cons_of_mem _ hr))]

theorem takeWhile_append_all {p : Chars → Bool} {a : List Chars} (b : List Chars)
    (h : ∀ x ∈ a, p x = true) :
    (a ++ b).takeWhile p = a ++ b.takeWhile p := by
  induction a with
  | nil => rfl
  | cons x xs ih =>
    rw [List.cons_append, List.takeWhile_cons, h x (List.mem_cons_self _ _)]
    rw [ih (fun y hy => h y (List.mem_cons_of_mem _ hy))]
    rfl

theorem takeWhile_cons_neg {p : Chars → Bool} {x : Chars} (xs : List Chars)
    (h : p x = false) : (x :: xs).takeWhile p = [] := by
  rw [List.takeWhile_cons, h]
  rfl

/-! ### Trimming, key-value splitting and integer parsing of the
constructed clauses -/

theorem trimSpace_cons_space (s : Chars) : trimSpace (' ' :: s) = trimSpace s := by
  unfold trimSpace dropSpaces
  rw [List.dropWhile_cons]
  rw [show isSpaceChar ' ' = true from rfl]
  simp only [if_true]

theorem trimSpace_word {s : Chars} (h : ∀ c ∈ s, isWordChar c = true) :
    trimSpace s = s := by
  refine trimSpace_eq_self ?_ ?_
  · intro c hc
    cases s with
    | nil => cases hc
    | cons x xs =>
      injection hc with h1
      exact isSpaceChar_eq_false_of_word (h c (h1 ▸ List.mem_cons_self _ _))
  · intro c hc
    exact isSpaceChar_eq_false_of_word (h c (List.mem_of_mem_getLast? hc))

theorem mem_dropWhile_of_neg {p : Char → Bool} {c : Char} {s : Chars}
    (hc : p c = false) (h : c ∈ s) : c ∈ s.dropWhile p := by
  induction s with
  | nil => cases h
  | cons x xs ih =>
    rw [List.dropWhile_cons]
    by_cases hx : p x = true
    · rw [hx]
      simp only [if_true]
      rcases List.mem_cons.mp h with rfl | hm
      · rw [hx] at hc; cases hc
      · exact ih hm
    · rw [Bool.not_eq_true] at hx
      rw [hx]
      simp only [Bool.false_eq_true, if_false]
      exact h

theorem mem_trimSpace_of_not_space {c : Char} {s : Chars}
    (hc : isSpaceChar c = false) (h : c ∈ s) : c ∈ trimSpace s := by
  unfold trimSpace dropSpaces
  rw [List.mem_reverse]
  apply mem_dropWhile_of_neg hc
  rw [List.mem_reverse]
  exact mem_dropWhile_of_neg hc h

theorem splitN2_cons (sep c : Char) (cs : Chars) :
    splitN2 sep (c :: cs) =
      if c = sep then some ([], cs)
      else match splitN2 sep cs with
        | none => none
        | some (a, b) => some (c :: a, b) := rfl

theorem splitN2_sep_append {sep : Char} {a : Chars} (b : Chars)
    (h : sep ∉ a) : splitN2 sep (a ++ sep :: b) = some (a, b) := by
  induction a with
  | nil =>
    rw [List.nil_append, splitN2_cons, if_pos rfl]
  | cons c cs ih =>
    have hc : ¬(c = sep) := by
      intro he
      apply h
      rw [← he]
      exact List.mem_cons_self _ _
    rw [List.cons_append, splitN2_cons, if_neg hc,
      ih (fun hm => h (List.mem_cons_of_mem _ hm))]

theorem goAtoiChecked_digits {s : Chars} (hne : s ≠ [])
    (hall : s.all isDigitChar = true) (hle : foldDigits s ≤ maxInt64) :
    goAtoiChecked s = some (foldDigits s : Int) := by
  unfold goAtoiChecked
  split
  · exact absurd ((List.all_eq_true.mp hall) '-' (List.mem_cons_self _ _))
      (by decide)
  · exact absurd ((List.all_eq_true.mp hall) '+' (List.mem_cons_self _ _))
      (by decide)
  · rw [if_pos]
    rw [Bool.and_eq_true, Bool.and_eq_true]
    refine ⟨⟨?_, hall⟩, ?_⟩
    · rw [decide_eq_true_iff]
      exact hne
    · rw [decide_eq_true_iff]
      exact hle

theorem jsonParseMembers_none {s : Chars} {c : Char} {z : Chars}
    (hdrop : dropSpaces s = c :: z) (hc : c ≠ '"') (acc : List (String × AttrValue)) :
    ∀ fuel, jsonParseMembers fuel s acc = none := by
  intro fuel
  cases fuel with
  | zero => rfl
  | succ fuel =>
    unfold jsonParseMembers
    rw [hdrop]
    split
    · rename_i rest heq
      injection heq with h1 _
      exact absurd h1 hc
    · rfl

theorem jsonUnmarshalObj_unquoted {t : Chars} {c : Char} {z : Chars}
    (hdrop : dropSpaces t = c :: z) (hb : c ≠ '\x7d') (hq : c ≠ '"') :
    jsonUnmarshalObj ('\x7b' :: t) = none := by
  unfold jsonUnmarshalObj
  rw [show dropSpaces ('\x7b' :: t) = '\x7b' :: t from by
    unfold dropSpaces
    exact dropWhile_cons_of_neg (by decide)]
  split
  · rename_i rest heq
    injection heq with h1 h2
    subst h2
    rw [hdrop]
    split
    · rename_i rest2 heq2
      injection heq2 with h3 _
      exact absurd h3 hb
    · rw [jsonParseMembers_none hdrop hq []]
  · rename_i hcatch
    exact absurd rfl (hcatch t)

/-! ### Character classes of the constructed parts -/

/-- Every character of a constructed part is a word character, a space
or a colon. -/
theorem partsOf_char_class {ids : List String} {rest : List (String × Nat)}
    (hidw : ∀ s ∈ ids, isIdentChars s.data = true)
    (hkw : ∀ p ∈ rest, isIdentChars p.1.data = true) :
    ∀ p ∈ partsOf ids rest, ∀ x ∈ p,
      isWordChar x = true ∨ x = ' ' ∨ x = ':' := by
  have hpart : ∀ p ∈ ids.map String.data ++ rest.map clauseOfKV,
      ∀ x ∈ p, isWordChar x = true ∨ x = ' ' ∨ x = ':' := by
    intro p hp x hx
    rcases List.mem_append.mp hp with hid | hkv
    · obtain ⟨s, hs, rfl⟩ := List.mem_map.mp hid
      exact Or.inl (identChars_all (hidw s hs) x hx)
    · obtain ⟨q, hq, rfl⟩ := List.mem_map.mp hkv
      unfold clauseOfKV at hx
      rcases List.mem_append.mp hx with hk | hrest
      · exact Or.inl (identChars_all (hkw q hq) x hk)
      · rcases List.mem_cons.mp hrest with rfl | hr2
        · exact Or.inr (Or.inr rfl)
        · rcases List.mem_cons.mp hr2 with rfl | hd
          · exact Or.inr (Or.inl rfl)
          · exact Or.inl (isWordChar_of_digit
              (List.all_eq_true.mp (decimalChars_all_digits q.2) x hd))
  intro p hp x hx
  unfold partsOf at hp
  cases hax : ids.map String.data ++ rest.map clauseOfKV with
  | nil => rw [hax] at hp; cases hp
  | cons a as =>
    rw [hax] at hp
    rcases List.mem_cons.mp hp with rfl | hmem
    · exact hpart p (by rw [hax]; exact List.mem_cons_self _ _) x hx
    · obtain ⟨q, hq, rfl⟩ := List.mem_map.mp hmem
      rcases List.mem_cons.mp hx with rfl | hxq
      · exact Or.inr (Or.inl rfl)
      · exact hpart q (by rw [hax]; exact List.mem_cons_of_mem _ hq) x hxq

theorem comma_not_in_part {ids : List String} {rest : List (String × Nat)}
    (hidw : ∀ s ∈ ids, isIdentChars s.data = true)
    (hkw : ∀ p ∈ rest, isIdentChars p.1.data = true) :
    ∀ p ∈ partsOf ids rest, ',' ∉ p := by
  intro p hp hmem
  rcases partsOf_char_class hidw hkw p hp ',' hmem with h | h | h
  · cases h
  · cases h
  · cases h

/-- Each constructed part trims of its spaces to a string whose first
character is a word character. -/
theorem partsOf_dropSpaces {ids : List String} {rest : List (String × Nat)}
    (hidw : ∀ s ∈ ids, isIdentChars s.data = true)
    (hkw : ∀ p ∈ rest, isIdentChars p.1.data = true) :
    ∀ p ∈ partsOf ids rest, ∃ c z, dropSpaces p = c :: z ∧ isWordChar c = true := by
  have hident : ∀ s : Chars, isIdentChars s = true →
      ∃ c z, dropSpaces s = c :: z ∧ isWordChar c = true := by
    intro s hs
    cases hcase : s with
    | nil => exact absurd hcase (identChars_ne_nil hs)
    | cons c z =>
      have hw : isWordChar c = true :=
        identChars_all hs c (by rw [hcase]; exact List.mem_cons_self _ _)
      refine ⟨c, z, ?_, hw⟩
      unfold dropSpaces
      exact dropWhile_cons_of_neg (isSpaceChar_eq_false_of_word hw)
  have hspaced : ∀ s : Chars, isIdentChars s = true →
      ∃ c z, dropSpaces (' ' :: s) = c :: z ∧ isWordChar c = true := by
    intro s hs
    obtain ⟨c, z, hdrop, hw⟩ := hident s hs
    refine ⟨c, z, ?_, hw⟩
    unfold dropSpaces at hdrop ⊢
    rw [List.dropWhile_cons]
    rw [show isSpaceChar ' ' = true from rfl]
    simp only [if_true]
    exact hdrop
  have hclause : ∀ q ∈ rest, ∃ c z,
      dropSpaces (clauseOfKV q) = c :: z ∧ isWordChar c = true := by
    intro q hq
    have hkq := hkw q hq
    cases hcase : q.1.data with
    | nil => exact absurd hcase (identChars_ne_nil hkq)
    | cons c z =>
      have hw : isWordChar c = true :=
        identChars_all hkq c (by rw [hcase]; exact List.mem_cons_self _ _)
      refine ⟨c, z ++ ':' :: ' ' :: decimalChars q.2, ?_, hw⟩
      unfold clauseOfKV dropSpaces
      rw [hcase, List.cons_append]
      exact dropWhile_cons_of_neg (isSpaceChar_eq_false_of_word hw)
  intro p hp
  unfold partsOf at hp
  cases hax : ids.map String.data ++ rest.map clauseOfKV with
  | nil => rw [hax] at hp; cases hp
  | cons a as =>
    rw [hax] at hp
    have ha : ∀ b ∈ ids.map String.data ++ rest.map clauseOfKV,
        ∃ c z, dropSpaces b = c :: z ∧ isWordChar c = true := by
      intro b hb
      rcases List.mem_append.mp hb with hid | hkv
      · obtain ⟨s, hs, rfl⟩ := List.mem_map.mp hid
        exact hident s.data (hidw s hs)
      · obtain ⟨q, hq, rfl⟩ := List.mem_map.mp hkv
        exact hclause q hq
    rcases List.mem_cons.mp hp with rfl | hmem
    · exact ha p (by rw [hax]; exact List.mem_cons_self _ _)
    · obtain ⟨q, hq, rfl⟩ := List.mem_map.mp hmem
      obtain ⟨c, z, hdrop, hw⟩ :=
        ha q (by rw [hax]; exact List.mem_cons_of_mem _ hq)
      refine ⟨c, z, ?_, hw⟩
      unfold dropSpaces at hdrop ⊢
      rw [List.dropWhile_cons]
      rw [show isSpaceChar ' ' = true from rfl]
      simp only [if_true]
      exact hdrop

/-- No `,\s*,` occurrence in a comma-join of comma-free parts whose
first non-space character is never a comma. -/
theorem hasCSC_joinComma_false : ∀ {ps : List Chars},
    (∀ p ∈ ps, ',' ∉ p) →
    (∀ p ∈ ps, ∃ c z, dropSpaces p = c :: z ∧ c ≠ ',') →
    hasCSC (joinComma ps) = false := by
  intro ps
  induction ps with
  | nil => intro _ _; rfl
  | cons p qs ih =>
    intro hnc hsh
    cases qs with
    | nil =>
      rw [show joinComma [p] = p from rfl]
      exact hasCSC_no_comma (hnc p (List.mem_cons_self _ _))
    | cons q rs =>
      rw [show joinComma (p :: q :: rs) = p ++ ',' :: joinComma (q :: rs)
        from rfl]
      rw [hasCSC_append_no_comma _ (hnc p (List.mem_cons_self _ _))]
      rw [hasCSC_cons, if_pos rfl]
      have hrest : hasCSC (joinComma (q :: rs)) = false :=
        ih (fun r hr => hnc r (List.mem_cons_of_mem _ hr))
          (fun r hr => hsh r (List.mem_cons_of_mem _ hr))
      obtain ⟨c, z, hdrop, hc⟩ :=
        hsh q (List.mem_cons_of_mem _ (List.mem_cons_self _ _))
      have hafter : afterCommaSpaces (joinComma (q :: rs)) = none := by
        cases rs with
        | nil => exact afterCommaSpaces_none hdrop hc
        | cons r rrs =>
          rw [show joinComma (q :: r :: rrs) = q ++ ',' :: joinComma (r :: rrs)
            from rfl]
          exact afterCommaSpaces_none
            (dropSpaces_append_of_cons _ hdrop) hc
      rw [hafter, hrest]
      rfl

/-! ### Bare-clause classification of the constructed parts -/

theorem isBareClause_eq (p : Chars) :
    isBareClause p = (!(trimSpace p).isEmpty && (trimSpace p).all isWordChar) :=
  rfl

theorem isBareClause_ident {s : Chars} (h : isIdentChars s = true) :
    isBareClause s = true := by
  rw [isBareClause_eq, trimSpace_word (identChars_all h)]
  exact h

theorem isBareClause_space (s : Chars) :
    isBareClause (' ' :: s) = isBareClause s := by
  rw [isBareClause_eq, isBareClause_eq, trimSpace_cons_space]

theorem isBareClause_colon {p : Chars} (h : ':' ∈ p) :
    isBareClause p = false := by
  rw [isBareClause_eq]
  have hmem : ':' ∈ trimSpace p := mem_trimSpace_of_not_space (by decide) h
  cases hall : (trimSpace p).all isWordChar with
  | true => exact absurd (List.all_eq_true.mp hall ':' hmem) (by decide)
  | false => rw [Bool.and_false]

theorem colon_mem_clauseOfKV (q : String × Nat) : ':' ∈ clauseOfKV q := by
  unfold clauseOfKV
  exact List.mem_append.mpr (Or.inr (List.mem_cons_self _ _))

/-! ### Last characters of the constructed parts -/

theorem getLast?_of_ne_nil {α : Type} {l : List α} (h : l ≠ []) :
    ∃ c, l.getLast? = some c := by
  cases hg : l.getLast? with
  | none => exact absurd (List.getLast?_eq_none_iff.mp hg) h
  | some c => exact ⟨c, rfl⟩

theorem ident_getLast_word {s : Chars} (h : isIdentChars s = true) :
    ∃ c, s.getLast? = some c ∧ isWordChar c = true := by
  obtain ⟨c, hc⟩ := getLast?_of_ne_nil (identChars_ne_nil h)
  exact ⟨c, hc, identChars_all h c (List.mem_of_mem_getLast? hc)⟩

theorem getLast?_cons_of_ne_nil {α : Type} (a : α) {s : List α} (h : s ≠ []) :
    (a :: s).getLast? = s.getLast? := by
  rw [show (a :: s) = [a] ++ s from rfl, List.getLast?_append_of_ne_nil _ h]

theorem clauseOfKV_ne_nil (q : String × Nat) : clauseOfKV q ≠ [] := by
  unfold clauseOfKV
  intro he
  rcases List.append_eq_nil.mp he with ⟨_, h2⟩
  cases h2

theorem clauseOfKV_getLast (q : String × Nat) :
    ∃ c, (clauseOfKV q).getLast? = some c ∧ isWordChar c = true := by
  obtain ⟨c, hc⟩ := getLast?_of_ne_nil (decimalChars_ne_nil q.2)
  refine ⟨c, ?_, isWordChar_of_digit (List.all_eq_true.mp
    (decimalChars_all_digits q.2) c (List.mem_of_mem_getLast? hc))⟩
  unfold clauseOfKV
  rw [List.getLast?_append_of_ne_nil _ (by intro he; cases he)]
  rw [show (':' :: ' ' :: decimalChars q.2 : Chars) =
    [':', ' '] ++ decimalChars q.2 from rfl]
  rw [List.getLast?_append_of_ne_nil _ (decimalChars_ne_nil q.2)]
  exact hc

theorem partsOf_getLast_word {ids : List String} {rest : List (String × Nat)}
    (hidw : ∀ s ∈ ids, isIdentChars s.data = true)
    (hkw : ∀ p ∈ rest, isIdentChars p.1.data = true) :
    ∀ p ∈ partsOf ids rest, ∃ c, p.getLast? = some c ∧ isWordChar c = true := by
  have hbase : ∀ p ∈ ids.map String.data ++ rest.map clauseOfKV,
      ∃ c, p.getLast? = some c ∧ isWordChar c = true := by
    intro p hp
    rcases List.mem_append.mp hp with hid | hkv
    · obtain ⟨s, hs, rfl⟩ := List.mem_map.mp hid
      exact ident_getLast_word (hidw s hs)
    · obtain ⟨q, hq, rfl⟩ := List.mem_map.mp hkv
      exact clauseOfKV_getLast q
  intro p hp
  unfold partsOf at hp
  cases hax : ids.map String.data ++ rest.map clauseOfKV with
  | nil => rw [hax] at hp; cases hp
  | cons a as =>
    rw [hax] at hp
    rcases List.mem_cons.mp hp with rfl | hmem
    · exact hbase p (by rw [hax]; exact List.mem_cons_self _ _)
    · obtain ⟨q, hq, rfl⟩ := List.mem_map.mp hmem
      obtain ⟨c, hc, hw⟩ := hbase q (by rw [hax]; exact List.mem_cons_of_mem _ hq)
      have hqne : q ≠ [] := by
        intro he
        rw [he] at hc
        cases hc
      exact ⟨c, by rw [getLast?_cons_of_ne_nil _ hqne]; exact hc, hw⟩

/-! ### Shape of the parts list -/

theorem partsOf_cons (i0 : String) (irest : List String)
    (rest : List (String × Nat)) :
    partsOf (i0 :: irest) rest =
      i0.data :: (irest.map (fun s => ' ' :: s.data) ++
        rest.map (fun q => ' ' :: clauseOfKV q)) := by
  unfold partsOf
  rw [List.map_cons, List.cons_append]
  dsimp only
  rw [List.map_append, List.map_map, List.map_map]
  rfl

theorem joinComma_cons_append (p : Chars) (ps : List Chars) :
    ∃ t, joinComma (p :: ps) = p ++ t := by
  cases ps with
  | nil => exact ⟨[], (List.append_nil p).symm⟩
  | cons q qs => exact ⟨',' :: joinComma (q :: qs), rfl⟩

/-! ### Folding insertions -/

theorem foldl_congr_mem {α β : Type} {l : List α} {f g : β → α → β}
    (h : ∀ b, ∀ a ∈ l, f b a = g b a) :
    ∀ init, l.foldl f init = l.foldl g init := by
  induction l with
  | nil => intro init; rfl
  | cons a as ih =>
    intro init
    rw [List.foldl_cons, List.foldl_cons, h init a (List.mem_cons_self _ _)]
    exact ih (fun b x hx => h b x (List.mem_cons_of_mem _ hx)) _

theorem lookup_foldl_insert_other {rest : List (String × Nat)} {k : String}
    (h : ∀ q ∈ rest, q.1 ≠ k) : ∀ r : AttrMap,
    mapLookup (rest.foldl
      (fun m q => mapInsert m q.1 (.vInt (q.2 : Int))) r) k = mapLookup r k := by
  induction rest with
  | nil => intro r; rfl
  | cons q qs ih =>
    intro r
    rw [List.foldl_cons, ih (fun p hp => h p (List.mem_cons_of_mem _ hp))]
    exact mapLookup_mapInsert_ne r k q.1 _ (h q (List.mem_cons_self _ _))

theorem lookup_foldl_insert_mem {rest : List (String × Nat)}
    (hnd : (rest.map Prod.fst).Nodup) {q : String × Nat} (hq : q ∈ rest) :
    ∀ r, mapLookup (rest.foldl
      (fun m p => mapInsert m p.1 (.vInt (p.2 : Int))) r) q.1 =
      some (.vInt (q.2 : Int)) := by
  induction rest with
  | nil => cases hq
  | cons p ps ih =>
    intro r
    rw [List.map_cons, List.nodup_cons] at hnd
    rw [List.foldl_cons]
    rcases List.mem_cons.mp hq with rfl | hmem
    · rw [lookup_foldl_insert_other (fun p' hp' he => hnd.1 (by
        rw [← he]
        exact List.mem_map_of_mem _ hp'))]
      exact mapLookup_mapInsert_self r q.1 _
    · exact ih hnd.2 hmem _

/-! ### Evaluating the residual stage on the key-value clauses -/

theorem startsWith_single_false {a d : Char} (rest : Chars) (h : a ≠ d) :
    startsWith [a] (d :: rest) = false := by
  unfold startsWith
  rw [decide_eq_false h, Bool.false_and]

theorem trimSpace_spaced_ident {s : Chars} (h : isIdentChars s = true) :
    trimSpace (' ' :: s) = s := by
  rw [trimSpace_cons_space]
  exact trimSpace_word (identChars_all h)

theorem trimSpace_spaced_digits (n : Nat) :
    trimSpace (' ' :: decimalChars n) = decimalChars n := by
  rw [trimSpace_cons_space]
  refine trimSpace_word ?_
  intro c hc
  exact isWordChar_of_digit (List.all_eq_true.mp (decimalChars_all_digits n) c hc)

/-- The residual stage on a comma-join of spaced `key: value` clauses
is exactly the fold of integer insertions. -/
theorem residualStage_kv : ∀ (rest : List (String × Nat)) (r : AttrMap),
    (∀ p ∈ rest, isIdentChars p.1.data = true) →
    (∀ p ∈ rest, p.2 ≤ maxInt64) →
    residualStage (joinComma (rest.map fun q => ' ' :: clauseOfKV q)) r
      = rest.foldl (fun m q => mapInsert m q.1 (.vInt (q.2 : Int))) r := by
  intro rest r hkw hv
  cases rest with
  | nil => rfl
  | cons q0 qs =>
    have hchar : ∀ p ∈ (q0 :: qs).map (fun q => ' ' :: clauseOfKV q),
        ∀ x ∈ p, isWordChar x = true ∨ x = ' ' ∨ x = ':' := by
      intro p hp x hx
      obtain ⟨q, hq, rfl⟩ := List.mem_map.mp hp
      rcases List.mem_cons.mp hx with rfl | hx2
      · exact Or.inr (Or.inl rfl)
      · unfold clauseOfKV at hx2
        rcases List.mem_append.mp hx2 with hk | hrest2
        · exact Or.inl (identChars_all (hkw q hq) x hk)
        · rcases List.mem_cons.mp hrest2 with rfl | hr2
          · exact Or.inr (Or.inr rfl)
          · rcases List.mem_cons.mp hr2 with rfl | hd
            · exact Or.inr (Or.inl rfl)
            · exact Or.inl (isWordChar_of_digit
                (List.all_eq_true.mp (decimalChars_all_digits q.2) x hd))
    have hnc : ∀ p ∈ (q0 :: qs).map (fun q => ' ' :: clauseOfKV q), ',' ∉ p := by
      intro p hp hmem
      rcases hchar p hp ',' hmem with h | h | h
      · cases h
      · cases h
      · cases h
    have hk0 := hkw q0 (List.mem_cons_self _ _)
    obtain ⟨c0, k0, hk0eq, hw0⟩ : ∃ c0 k0, q0.1.data = c0 :: k0 ∧
        isWordChar c0 = true := by
      cases hcase : q0.1.data with
      | nil => exact absurd hcase (identChars_ne_nil hk0)
      | cons c z =>
        exact ⟨c, z, rfl, identChars_all hk0 c
          (by rw [hcase]; exact List.mem_cons_self _ _)⟩
    have hdrop0 : dropSpaces (' ' :: clauseOfKV q0) =
        c0 :: (k0 ++ ':' :: ' ' :: decimalChars q0.2) := by
      unfold dropSpaces clauseOfKV
      rw [hk0eq, List.cons_append, List.dropWhile_cons]
      rw [show isSpaceChar ' ' = true from rfl]
      simp only [if_true]
      exact dropWhile_cons_of_neg (isSpaceChar_eq_false_of_word hw0)
    rw [List.map_cons]
    obtain ⟨tail, htail⟩ :=
      joinComma_cons_append (' ' :: clauseOfKV q0)
        (qs.map fun q => ' ' :: clauseOfKV q)
    have hJdrop : dropSpaces (joinComma ((' ' :: clauseOfKV q0) ::
        qs.map fun q => ' ' :: clauseOfKV q)) =
        c0 :: ((k0 ++ ':' :: ' ' :: decimalChars q0.2) ++ tail) := by
      rw [htail]
      exact dropSpaces_append_of_cons tail hdrop0
    have hne0 : (joinComma ((' ' :: clauseOfKV q0) ::
        qs.map fun q => ' ' :: clauseOfKV q)).isEmpty = false := by
      rw [htail, List.cons_append]
      rfl
    unfold residualStage
    rw [hne0]
    simp only [Bool.false_eq_true, if_false]
    have hmapid : (joinComma ((' ' :: clauseOfKV q0) ::
        qs.map fun q => ' ' :: clauseOfKV q)).map
          (fun c => if c = '\'' then '"' else c) =
        joinComma ((' ' :: clauseOfKV q0) ::
          qs.map fun q => ' ' :: clauseOfKV q) := by
      have hpt : ∀ c ∈ joinComma ((' ' :: clauseOfKV q0) ::
          qs.map fun q => ' ' :: clauseOfKV q),
          (if c = '\'' then '"' else c) = c := by
        intro c hc
        rcases mem_joinComma hc with rfl | ⟨p, hp, hcp⟩
        · rfl
        · have := hchar p (by rw [List.map_cons]; exact hp) c hcp
          rcases this with h | h | h
          · refine if_neg ?_
            intro he
            rw [he] at h
            cases h
          · rw [h]; rfl
          · rw [h]; rfl
      rw [List.map_congr_left hpt]
      exact List.map_id _
    rw [hmapid]
    have hjson := jsonUnmarshalObj_unquoted
      (dropSpaces_append_of_cons ['\x7d'] hJdrop)
      (word_ne hw0 (by decide)) (word_ne hw0 (by decide))
    rw [List.cons_append, hjson]
    rw [splitOnChar_joinComma (by intro he; cases he)
      (by intro p hp; exact hnc p (by rw [List.map_cons]; exact hp))]
    rw [show ((' ' :: clauseOfKV q0) :: qs.map fun q => ' ' :: clauseOfKV q) =
      (q0 :: qs).map (fun q => ' ' :: clauseOfKV q) from by rw [List.map_cons]]
    rw [List.foldl_map]
    refine foldl_congr_mem ?_ r
    intro m q hq
    dsimp only
    rw [show (' ' :: clauseOfKV q : Chars) =
      (' ' :: q.1.data) ++ ':' :: (' ' :: decimalChars q.2) from rfl]
    rw [splitN2_sep_append _ (by
      intro hm
      rcases List.mem_cons.mp hm with h1 | h2
      · exact absurd h1 (by decide)
      · exact absurd (identChars_all (hkw q hq) ':' h2) (by decide))]
    dsimp only
    rw [trimSpace_spaced_ident (hkw q hq), trimSpace_spaced_digits q.2]
    have hsw : startsWith ['['] (decimalChars q.2) = false := by
      cases hdc : decimalChars q.2 with
      | nil => exact absurd hdc (decimalChars_ne_nil q.2)
      | cons d ds =>
        refine startsWith_single_false ds ?_
        intro he
        have hd : isDigitChar d = true :=
          List.all_eq_true.mp (decimalChars_all_digits q.2) d
            (by rw [hdc]; exact List.mem_cons_self _ _)
        rw [← he] at hd
        exact absurd hd (by decide)
    rw [hsw, Bool.false_and]
    simp only [Bool.false_eq_true, if_false]
    rw [goAtoiChecked_digits (decimalChars_ne_nil q.2)
      (decimalChars_all_digits q.2)
      (by rw [foldDigits_decimalChars]; exact hv q hq)]
    dsimp only
    rw [foldDigits_decimalChars]

/-! ### Evaluating the bare-identifier stage on the constructed parts -/

theorem detectBareColumns_parts (i0 : String) (irest : List String)
    (rest : List (String × Nat))
    (hidw : ∀ s ∈ i0 :: irest, isIdentChars s.data = true)
    (hkw : ∀ p ∈ rest, isIdentChars p.1.data = true) (r : AttrMap) :
    detectBareColumns (joinComma (partsOf (i0 :: irest) rest)) r =
      (joinComma (rest.map fun q => ' ' :: clauseOfKV q),
       mapInsert r "_columns"
         (.vList ((i0 :: irest).map fun s => .vStr s))) := by
  have hsplit : splitOnChar ',' (joinComma (partsOf (i0 :: irest) rest)) =
      partsOf (i0 :: irest) rest := by
    refine splitOnChar_joinComma ?_ (comma_not_in_part hidw hkw)
    rw [partsOf_cons]
    intro he
    cases he
  have htake : (partsOf (i0 :: irest) rest).takeWhile isBareClause =
      i0.data :: irest.map (fun s => ' ' :: s.data) := by
    rw [partsOf_cons, List.takeWhile_cons,
      isBareClause_ident (hidw i0 (List.mem_cons_self _ _)), if_pos rfl]
    rw [takeWhile_append_all _ (by
      intro p hp
      obtain ⟨s, hs, rfl⟩ := List.mem_map.mp hp
      rw [isBareClause_space]
      exact isBareClause_ident (hidw s (List.mem_cons_of_mem _ hs)))]
    have hkv : (rest.map fun q => ' ' :: clauseOfKV q).takeWhile isBareClause
        = [] := by
      cases rest with
      | nil => rfl
      | cons r0 rs =>
        rw [List.map_cons]
        refine takeWhile_cons_neg _ ?_
        rw [isBareClause_space]
        exact isBareClause_colon (colon_mem_clauseOfKV r0)
    rw [hkv, List.append_nil]
  have hlen : (i0.data :: irest.map (fun s => ' ' :: s.data)).length =
      (i0 :: irest).length := by
    rw [List.length_cons, List.length_map, List.length_cons]
  have hdrop : (partsOf (i0 :: irest) rest).drop
      (i0.data :: irest.map (fun s => ' ' :: s.data)).length =
      rest.map fun q => ' ' :: clauseOfKV q := by
    rw [partsOf_cons,
      show (i0.data :: (irest.map (fun s => ' ' :: s.data) ++
          rest.map fun q => ' ' :: clauseOfKV q)) =
        (i0.data :: irest.map (fun s => ' ' :: s.data)) ++
          (rest.map fun q => ' ' :: clauseOfKV q) from rfl]
    exact List.drop_left _ _
  have hmapv : (i0.data :: irest.map (fun s => ' ' :: s.data)).map
      (fun c => AttrValue.vStr (String.mk (trimSpace c))) =
      (i0 :: irest).map fun s => AttrValue.vStr s := by
    rw [List.map_cons, List.map_cons, List.map_map,
      trimSpace_word (identChars_all (hidw i0 (List.mem_cons_self _ _)))]
    refine congrArg _ ?_
    refine List.map_congr_left ?_
    intro s hs
    show AttrValue.vStr (String.mk (trimSpace (' ' :: s.data))) =
      AttrValue.vStr s
    rw [trimSpace_spaced_ident (hidw s (List.mem_cons_of_mem _ hs))]
  unfold detectBareColumns
  rw [hsplit]
  dsimp only
  rw [htake]
  rw [show (i0.data :: irest.map (fun s => ' ' :: s.data)).isEmpty = false
    from rfl]
  simp only [Bool.false_eq_true, if_false]
  rw [hdrop, hmapv]

/-! ### Fields of the built WHERE conditions -/

theorem condOfEntry_field {p : String × AttrValue} {c : Cond}
    (h : condOfEntry p = .ok c) {f : String} (hf : condField c = some f) :
    f = p.1 := by
  unfold condOfEntry at h
  split at h
  · injection h with h1
    rw [← h1] at hf
    cases hf
  · injection h with h1
    rw [← h1] at hf
    injection hf with h2
    exact h2.symm
  · split at h
    · injection h with h1
      rw [← h1] at hf
      injection hf with h2
      exact h2.symm
    · cases h
  · injection h with h1
    rw [← h1] at hf
    injection hf with h2
    exact h2.symm

theorem buildWhere_field {m : AttrMap} {conds : List Cond}
    (h : buildWhere m = .ok conds) :
    ∀ c ∈ conds, ∀ f, condField c = some f → ∃ v, (f, v) ∈ m := by
  induction m generalizing conds with
  | nil =>
    injection h with h1
    rw [← h1]
    intro c hc
    cases hc
  | cons p rest ih =>
    unfold buildWhere at h
    cases hq : condOfEntry p with
    | error e => rw [hq] at h; cases h
    | ok c0 =>
      rw [hq] at h
      cases hr : buildWhere rest with
      | error e => rw [hr] at h; cases h
      | ok cs =>
        rw [hr] at h
        injection h with h2
        subst h2
        intro c hc f hf
        rcases List.mem_cons.mp hc with rfl | hct
        · refine ⟨p.2, ?_⟩
          rw [condOfEntry_field hq hf]
          exact List.mem_cons_self _ _
        · obtain ⟨v, hv⟩ := ih hr c hct f hf
          exact ⟨v, List.mem_cons_of_mem _ hv⟩

/-- A well-shaped `_columns` value never survives into the residual
filter map. -/
theorem residualAfterOptions_columns_none (args : AttrMap)
    (hcols : ∀ v, mapLookup args "_columns" = some v →
      ∃ xs, v = AttrValue.vList xs ∧ ¬xs.isEmpty = true ∧
        ¬(xs.filterMap fun w =>
            match w with
            | AttrValue.vStr s => some s
            | _ => none).isEmpty = true) :
    mapLookup (residualAfterOptions args) "_columns" = none := by
  unfold residualAfterOptions extractLike
  rw [extractTwo_snd_lookup_other _ _ _ _ (by decide) (by decide),
    extractTwo_snd_lookup_other _ _ _ _ (by decide) (by decide),
    extractTwo_snd_lookup_other _ _ _ _ (by decide) (by decide),
    extractOrder_snd,
    extractTwo_snd_lookup_other _ _ _ _ (by decide) (by decide),
    extractTwo_snd_lookup_other _ _ _ _ (by decide) (by decide)]
  exact extractColumns_snd_lookup_columns args hcols

theorem filterMap_vStr_map (ids : List String) :
    ((ids.map fun s => AttrValue.vStr s).filterMap fun w =>
      match w with
      | AttrValue.vStr s => some s
      | _ => none) = ids := by
  induction ids with
  | nil => rfl
  | cons s r ih =>
    rw [List.map_cons, List.filterMap_cons]
    dsimp only
    rw [ih]

/-- The inner text of the constructed expression. -/
def innerJoin (ids : List String) (rest : List (String × Nat)) : Chars :=
  joinComma (partsOf ids rest)

/-- Full evaluation of the spec-extended parser on the constructed
bare-identifier expression. -/
theorem ParseArgSpec_exprOf (ids : List String) (rest : List (String × Nat))
    (hids : ids ≠ [])
    (hidw : ∀ s ∈ ids, isIdentChars s.data = true)
    (hkw : ∀ p ∈ rest, isIdentChars p.1.data = true)
    (hv : ∀ p ∈ rest, p.2 ≤ maxInt64) :
    ParseArgSpec (exprOf ids rest) = .ok (some
      (rest.foldl (fun m q => mapInsert m q.1 (.vInt (q.2 : Int)))
        [("_columns", .vList (ids.map fun s => .vStr s))])) := by
  cases ids with
  | nil => exact absurd rfl hids
  | cons i0 irest =>
    have hi0 : isIdentChars i0.data = true := hidw i0 (List.mem_cons_self _ _)
    obtain ⟨c0, k0, hk0eq, hw0⟩ : ∃ c0 k0, i0.data = c0 :: k0 ∧
        isWordChar c0 = true := by
      cases hcase : i0.data with
      | nil => exact absurd hcase (identChars_ne_nil hi0)
      | cons c z =>
        exact ⟨c, z, rfl, identChars_all hi0 c
          (by rw [hcase]; exact List.mem_cons_self _ _)⟩
    have hparts : partsOf (i0 :: irest) rest =
        i0.data :: (irest.map (fun s => ' ' :: s.data) ++
          rest.map fun q => ' ' :: clauseOfKV q) := partsOf_cons i0 irest rest
    have hJhead : (innerJoin (i0 :: irest) rest).head? = some c0 := by
      unfold innerJoin
      rw [hparts, head?_joinComma _ (identChars_ne_nil hi0), hk0eq]
      rfl
    have hJlast : ∃ cl, (innerJoin (i0 :: irest) rest).getLast? = some cl ∧
        isWordChar cl = true := by
      have hne : partsOf (i0 :: irest) rest ≠ [] := by
        rw [hparts]
        intro he
        cases he
      obtain ⟨plast, hpl⟩ := getLast?_of_ne_nil hne
      obtain ⟨cl, hcl, hclw⟩ :=
        partsOf_getLast_word hidw hkw plast (List.mem_of_mem_getLast? hpl)
      have hplne : plast ≠ [] := by
        intro he
        rw [he] at hcl
        cases hcl
      exact ⟨cl, by unfold innerJoin; rw [getLast?_joinComma hpl hplne]; exact hcl,
        hclw⟩
    have hJchar : ∀ c ∈ innerJoin (i0 :: irest) rest,
        isWordChar c = true ∨ c = ',' ∨ c = ' ' ∨ c = ':' :=
      mem_inner_class (i0 :: irest) rest hidw hkw
    have hnb : '[' ∉ innerJoin (i0 :: irest) rest := by
      intro h
      rcases hJchar '[' h with h1 | h1 | h1 | h1
      · exact absurd h1 (by decide)
      · exact absurd h1 (by decide)
      · exact absurd h1 (by decide)
      · exact absurd h1 (by decide)
    have hnp : '(' ∉ innerJoin (i0 :: irest) rest := by
      intro h
      rcases hJchar '(' h with h1 | h1 | h1 | h1
      · exact absurd h1 (by decide)
      · exact absurd h1 (by decide)
      · exact absurd h1 (by decide)
      · exact absurd h1 (by decide)
    have htrimJ : trimSpace (innerJoin (i0 :: irest) rest) =
        innerJoin (i0 :: irest) rest := by
      refine trimSpace_eq_self ?_ ?_
      · intro c hc
        rw [hJhead] at hc
        injection hc with h1
        rw [← h1]
        exact isSpaceChar_eq_false_of_word hw0
      · intro c hc
        obtain ⟨cl, hcl, hclw⟩ := hJlast
        rw [hcl] at hc
        injection hc with h1
        rw [← h1]
        exact isSpaceChar_eq_false_of_word hclw
    have hCSC : hasCSC (innerJoin (i0 :: irest) rest) = false := by
      unfold innerJoin
      refine hasCSC_joinComma_false (comma_not_in_part hidw hkw) ?_
      intro p hp
      obtain ⟨c, z, hd, hw⟩ := partsOf_dropSpaces hidw hkw p hp
      exact ⟨c, z, hd, word_ne hw (by decide)⟩
    have hclean : cleanupStage (innerJoin (i0 :: irest) rest) =
        innerJoin (i0 :: irest) rest := by
      unfold cleanupStage
      dsimp only
      rw [htrimJ, replaceDoubleCommas_id hCSC]
      refine stripEdgeCommas_id ?_ ?_
      · intro c hc
        rw [hJhead] at hc
        injection hc with h1
        rw [← h1]
        exact word_ne hw0 (by decide)
      · intro c hc
        obtain ⟨cl, hcl, hclw⟩ := hJlast
        rw [hcl] at hc
        injection hc with h1
        rw [← h1]
        exact word_ne hclw (by decide)
    have hpo : parseObjectExprSpec
        ('\x7b' :: (innerJoin (i0 :: irest) rest ++ ['\x7d'])) = .ok
        (rest.foldl (fun m q => mapInsert m q.1 (.vInt (q.2 : Int)))
          [("_columns", .vList ((i0 :: irest).map fun s => .vStr s))]) := by
      have hdrop1 : (('\x7b' :: (innerJoin (i0 :: irest) rest ++
          ['\x7d'])).drop 1).dropLast = innerJoin (i0 :: irest) rest := by
        rw [show ('\x7b' :: (innerJoin (i0 :: irest) rest ++
          ['\x7d'])).drop 1 = innerJoin (i0 :: irest) rest ++ ['\x7d']
          from rfl]
        exact List.dropLast_concat
      unfold parseObjectExprSpec
      rw [hdrop1, htrimJ]
      dsimp only
      rw [multiAssignStage_id hnb]
      dsimp only
      rw [rangeStage_id hnp]
      dsimp only
      rw [hclean]
      rw [arraysStage_id hnb]
      dsimp only
      rw [show innerJoin (i0 :: irest) rest =
        joinComma (partsOf (i0 :: irest) rest) from rfl]
      rw [detectBareColumns_parts i0 irest rest hidw hkw []]
      dsimp only
      rw [residualStage_kv rest _ hkw hv]
      rfl
    have hglast : ('\x7b' :: (innerJoin (i0 :: irest) rest ++
        ['\x7d'])).getLast? = some '\x7d' := by
      rw [getLast?_cons_of_ne_nil _ (by
        intro he
        rcases List.append_eq_nil.mp he with ⟨h1, h2⟩
        cases h2)]
      simp
    have hne : exprOf (i0 :: irest) rest ≠ "" := by
      intro he
      have h2 := congrArg String.data he
      cases h2
    unfold ParseArgSpec
    rw [if_neg hne]
    have hdata : (exprOf (i0 :: irest) rest).data =
        '\x7b' :: (innerJoin (i0 :: irest) rest ++ ['\x7d']) := rfl
    rw [hdata]
    have htr : trimSpace ('\x7b' :: (innerJoin (i0 :: irest) rest ++
        ['\x7d'])) = '\x7b' :: (innerJoin (i0 :: irest) rest ++
        ['\x7d']) := by
      refine trimSpace_eq_self ?_ ?_
      · intro c hc
        injection hc with h1
        rw [← h1]
        rfl
      · intro c hc
        rw [hglast] at hc
        injection hc with h1
        rw [← h1]
        rfl
    rw [htr]
    dsimp only
    have hdt : (!('\x7b' :: (innerJoin (i0 :: irest) rest ++
        ['\x7d'])).isEmpty && ('\x7b' :: (innerJoin (i0 :: irest) rest ++
        ['\x7d'])).all isDigitChar) = false := by
      rw [List.all_cons]
      rw [show isDigitChar '\x7b' = false from rfl]
      rw [Bool.false_and, Bool.and_false]
    rw [hdt]
    simp only [Bool.false_eq_true, if_false]
    have hsw : startsWith ['\x7b'] ('\x7b' :: (innerJoin (i0 :: irest)
        rest ++ ['\x7d'])) = true := rfl
    have hew : endsWithChar '\x7d' ('\x7b' :: (innerJoin (i0 :: irest)
        rest ++ ['\x7d'])) = true := by
      unfold endsWithChar
      rw [hglast]
      rfl
    rw [hsw, hew, Bool.and_self]
    rw [if_pos rfl]
    rw [hpo]
    rfl

/-- **C1.** For every argument expression that starts with
comma-separated bare identifiers carrying no colon and continues with
integer-valued `key: value` clauses (the `\x7bname, email, lim: 2\x7d`
family), the parser extended with the spec-modelled bare-identifier
stage succeeds with a map that binds the reserved key `_columns` to
the list of those identifiers as strings alongside every other parsed
clause, and on any successful GET over that map `_columns` is consumed
as the projection and never appears as a WHERE filter field. -/
theorem C1_bare_columns (ids : List String) (rest : List (String × Nat))
    (hids : ids ≠ [])
    (hidw : ∀ s ∈ ids, isIdentChars s.data = true)
    (hkw : ∀ p ∈ rest, isIdentChars p.1.data = true)
    (hv : ∀ p ∈ rest, p.2 ≤ maxInt64)
    (hnc : "_columns" ∉ rest.map Prod.fst)
    (hnd : (rest.map Prod.fst).Nodup) :
    ∃ m, ParseArgSpec (exprOf ids rest) = .ok (some m) ∧
      mapLookup m "_columns" =
        some (.vList (ids.map fun s => .vStr s)) ∧
      (∀ q ∈ rest, mapLookup m q.1 = some (.vInt (q.2 : Int))) ∧
      (∀ (schema : List String) (accs : List Access) (out : GetOutput),
        HandleGet schema m = (accs, .ok out) →
        ∀ c ∈ out.whereConds, condField c ≠ some "_columns") := by
  have hother : ∀ q ∈ rest, q.1 ≠ "_columns" := by
    intro q hq he
    apply hnc
    rw [← he]
    exact List.mem_map_of_mem _ hq
  have hbase : mapLookup (rest.foldl
      (fun m q => mapInsert m q.1 (.vInt (q.2 : Int)))
      [("_columns", .vList (ids.map fun s => .vStr s))]) "_columns" =
      some (.vList (ids.map fun s => .vStr s)) := by
    rw [lookup_foldl_insert_other hother, mapLookup_cons, if_pos rfl]
  refine ⟨rest.foldl (fun m q => mapInsert m q.1 (.vInt (q.2 : Int)))
    [("_columns", .vList (ids.map fun s => .vStr s))],
    ParseArgSpec_exprOf ids rest hids hidw hkw hv, hbase, ?_, ?_⟩
  · intro q hq
    exact lookup_foldl_insert_mem hnd hq _
  · intro schema accs out hok c hc hfeq
    obtain ⟨hres, hwhere⟩ := HandleGet_ok_spec hok
    obtain ⟨v, hvmem⟩ := buildWhere_field hwhere c hc "_columns" hfeq
    refine mapLookup_none_not_mem
      (residualAfterOptions_columns_none _ ?_) v hvmem
    intro w hw
    rw [hbase] at hw
    injection hw with hw2
    refine ⟨ids.map fun s => .vStr s, hw2.symm, ?_, ?_⟩
    · cases ids with
      | nil => exact absurd rfl hids
      | cons i0 irest =>
        rw [List.map_cons]
        intro h
        cases h
    · rw [filterMap_vStr_map]
      cases ids with
      | nil => exact absurd rfl hids
      | cons i0 irest =>
        intro h
        cases h

/-- Witness for C1: `\x7bname, email, lim: 2\x7d` parses to
`_columns = ["name", "email"]` together with `lim = 2`. -/
theorem C1_bare_columns_witness :
    exprOf ["name", "email"] [("lim", 2)] = "\x7bname, email, lim: 2\x7d" ∧
    (∃ m, ParseArgSpec (exprOf ["name", "email"] [("lim", 2)]) =
        .ok (some m) ∧
      mapLookup m "_columns" =
        some (.vList (["name", "email"].map fun s => .vStr s)) ∧
      (∀ q ∈ ([("lim", 2)] : List (String × Nat)),
        mapLookup m q.1 = some (.vInt (q.2 : Int))) ∧
      (∀ (schema : List String) (accs : List Access) (out : GetOutput),
        HandleGet schema m = (accs, .ok out) →
        ∀ c ∈ out.whereConds, condField c ≠ some "_columns")) :=
  ⟨by decide,
   C1_bare_columns ["name", "email"] [("lim", 2)] (by decide) (by decide)
     (by decide) (by decide) (by decide) (by decide)⟩

end NoQLi
